import Mathlib

/-!
Verification of the nested-set indexer (`dsatoh/nested_set_indexer`).

The development shallowly embeds the two variants of the core found in the
repository:

* `src/data.rs` — `Graph::new`, `Graph::is_dag`, `Graph::build_child_map`,
  `Graph::dag_to_tree`, `Graph::complement_leaf`, `Graph::build_index`
  (with the inner recursive `fill`);
* `src/main.rs` — `NestedSet::new` and `NestedSet::rebuild`.

Rust `HashMap`s keyed by identity strings are embedded as functions from
strings computed from the node list (insertion order per key follows the
index order of the node vector, and a later `insert` for the same key
overwrites the earlier one, which the embeddings mirror).  The recursive
traversals (`fill`, the BFS queue loop of `dag_to_tree`) take an explicit
fuel argument and return an `Except` value; exhausting fuel produces the
distinguished error `Err.fuelOut`, so any `.ok` result corresponds to a
finite run of the Rust code.  `Vec` indexing with `unwrap` is embedded as
`List.get?` with the distinguished error `Err.oob` on the (unreachable in
the Rust pipeline) out-of-range case.
-/

namespace NSI

/-- One record of the hierarchy, mirroring `Node` of `src/data.rs`
(fields `pid`, `node`, `origin`, `label`, `parent_node`, `parent_id`,
`leaf`, `lft`, `rgt`, `count`; serde renames only affect the I/O boundary). -/
structure Node where
  pid : Option Nat
  node : String
  origin : Option String
  label : String
  parent_node : Option String
  parent_id : Option Nat
  leaf : Bool
  lft : Option Nat
  rgt : Option Nat
  count : Option Nat
deriving DecidableEq, Repr

/-- Error kinds of `src/error.rs` that the embedded core can produce, plus
`fuelOut` (the explicit fuel of an embedded loop ran out — no Rust
counterpart; a diverging Rust run never returns) and `oob` (a Rust
`unwrap`/index panic). -/
inductive Err where
  | parentNotFound (s : String)
  | rootNotFound
  | multipleRoot
  | fuelOut
  | oob
deriving DecidableEq, Repr

/-- Separator `"__"` of `src/data.rs` (`const SEPARATOR`). -/
def sep : String := "__"

/-- Identity of node `i` (out of range: `""`). -/
def idv (ns : List Node) (i : Nat) : String :=
  ((ns.get? i).map (fun nd => nd.node)).getD ""

/-- Leaf flag of node `i` (out of range: `true`). -/
def leafv (ns : List Node) (i : Nat) : Bool :=
  ((ns.get? i).map (fun nd => nd.leaf)).getD true

/-- Parent identity of node `i` (out of range: `none`). -/
def pnv (ns : List Node) (i : Nat) : Option String :=
  (ns.get? i).bind (fun nd => nd.parent_node)

/-- Value view of the `lft` field of node `i`. -/
def lftv (ns : List Node) (i : Nat) : Option Nat :=
  (ns.get? i).bind (fun nd => nd.lft)

/-- Value view of the `rgt` field of node `i`. -/
def rgtv (ns : List Node) (i : Nat) : Option Nat :=
  (ns.get? i).bind (fun nd => nd.rgt)

/-- Value view of the `count` field of node `i`. -/
def countv (ns : List Node) (i : Nat) : Option Nat :=
  (ns.get? i).bind (fun nd => nd.count)

/-- Value view of the `pid` field of node `i`. -/
def pidv (ns : List Node) (i : Nat) : Option Nat :=
  (ns.get? i).bind (fun nd => nd.pid)

/-- Value view of the `parent_id` field of node `i`. -/
def parentIdv (ns : List Node) (i : Nat) : Option Nat :=
  (ns.get? i).bind (fun nd => nd.parent_id)

/-- The child map of `Graph::build_child_map`: for a parent identity `s`,
the indices of the nodes whose `parent_node` is `s`, in vector order
(the Rust code pushes `(i, child identity)` pairs while enumerating the
vector; only the index component is consumed by `fill`, and the identity
component always equals the indexed node's identity). -/
def childIdx (ns : List Node) (s : String) : List Nat :=
  (List.range ns.length).filter (fun j => pnv ns j == some s)

/-- The parent-lookup map built at the start of `Graph::build_index`: each
non-leaf node inserts `identity ↦ i + 1` while enumerating the vector, a
later insert overwriting an earlier one, so the map sends `s` to
`i + 1` for the last non-leaf node `i` whose identity is `s`. -/
def parentMap (ns : List Node) (s : String) : Option Nat :=
  (((List.range ns.length).filter
      (fun j => !leafv ns j && idv ns j == s)).getLast?).map (fun j => j + 1)

/-- Position of the first non-leaf node carrying identity `s`; the
node-level parent relation used in specification statements resolves a
parent identity to this node (under uniqueness of non-leaf identities it
is the only candidate). -/
def firstNL (ns : List Node) (s : String) : Option Nat :=
  ((List.range ns.length).filter
      (fun j => !leafv ns j && idv ns j == s)).head?

/-- Resolved parent position of node `j`: the first non-leaf node whose
identity equals `j`'s parent identity. -/
def pIdx (ns : List Node) (j : Nat) : Option Nat :=
  match pnv ns j with
  | none => none
  | some s => firstNL ns s

/-- Iterated parent resolution: follow `pIdx` for `k` steps. -/
def iterP (ns : List Node) : Nat → Nat → Option Nat
  | 0, j => some j
  | k + 1, j => (pIdx ns j).bind (iterP ns k)

/-- Decides whether `x` is a strict descendant of `i`: some positive
number of parent steps from `x` reaches `i`.  The chain length is bounded
by the list length, which loses nothing on acyclic inputs. -/
def isDesc (ns : List Node) (i x : Nat) : Bool :=
  (List.range (ns.length + 1)).any
    (fun k => decide (1 ≤ k) && iterP ns k x == some i)

/-- Number of strict descendants of node `i`. -/
def descCount (ns : List Node) (i : Nat) : Nat :=
  (List.range ns.length).countP (fun x => isDesc ns i x)

/-- Number of direct children of node `i` under parent resolution. -/
def childCount (ns : List Node) (i : Nat) : Nat :=
  (List.range ns.length).countP (fun x => pIdx ns x == some i)

/-! ### Validity predicates

The decidable hypotheses under which the indexing claims are settled. -/

/-- Distinct non-leaf nodes carry distinct identities (the collection is
not a DAG). -/
def NLUniq (ns : List Node) : Prop :=
  ∀ i, i < ns.length → ∀ j, j < ns.length →
    leafv ns i = false → leafv ns j = false → idv ns i = idv ns j → i = j

/-- No node's parent identity equals a leaf node's identity (leaves are
never looked up as a parent target). -/
def LeafNotRef (ns : List Node) : Prop :=
  ∀ i, i < ns.length → ∀ j, j < ns.length →
    leafv ns j = true → pnv ns i ≠ some (idv ns j)

/-- Every present parent identity resolves to some non-leaf node. -/
def Resolves (ns : List Node) : Prop :=
  ∀ i, i < ns.length →
    pnv ns i = none ∨ ∃ j, j < ns.length ∧ leafv ns j = false ∧
      pnv ns i = some (idv ns j)

/-- No node is its own iterated parent (cycle lengths up to the list
length suffice to detect any cycle). -/
def Acyclic (ns : List Node) : Prop :=
  ∀ i, i < ns.length → ∀ k, k < ns.length + 1 → 1 ≤ k →
    iterP ns k i ≠ some i

instance (ns : List Node) : Decidable (NLUniq ns) := by
  unfold NLUniq; infer_instance

instance (ns : List Node) : Decidable (LeafNotRef ns) := by
  unfold LeafNotRef; infer_instance

instance (ns : List Node) : Decidable (Resolves ns) := by
  unfold Resolves; infer_instance

instance (ns : List Node) : Decidable (Acyclic ns) := by
  unfold Acyclic; infer_instance

/-! ### `Graph::new` -/

/-- The root-discovery loop of `Graph::new`: scan the vector, record the
first node without a parent identity, fail on a second one. -/
def rootLoop : List Node → Nat → Option Nat → Except Err (Option Nat)
  | [], _, acc => .ok acc
  | nd :: rest, i, acc =>
    if nd.parent_node.isNone then
      match acc with
      | none => rootLoop rest (i + 1) (some i)
      | some _ => .error .multipleRoot
    else rootLoop rest (i + 1) acc

/-- `Graph::new`: validate that exactly one node lacks a parent identity
and return the node vector together with the root position. -/
def graphNew (ns : List Node) : Except Err (List Node × Nat) :=
  match rootLoop ns 0 none with
  | .error e => .error e
  | .ok none => .error .rootNotFound
  | .ok (some r) => .ok (ns, r)

/-! ### `Graph::is_dag` -/

/-- The scan of `Graph::is_dag` with the explicit set of non-leaf
identities seen so far (the Rust `HashSet`; `insert` is only reached for
non-leaf nodes because `&&` short-circuits). -/
def isDagGo : List Node → List String → Bool
  | [], _ => false
  | nd :: rest, seen =>
    if !nd.leaf && seen.contains nd.node then true
    else isDagGo rest (if nd.leaf then seen else nd.node :: seen)

/-- `Graph::is_dag`: true iff some non-leaf identity repeats among
non-leaf nodes. -/
def isDag (ns : List Node) : Bool := isDagGo ns []

/-! ### `Graph::complement_leaf` -/

/-- Deduplication key of `complement_leaf`'s `push_unless_exist`:
the `(identity, parent identity)` pair. -/
def keyOf (nd : Node) : String × Option String := (nd.node, nd.parent_node)

/-- The `push_unless_exist` closure: append the node unless its key was
already inserted into the set. -/
def pushUnless (st : List Node × List (String × Option String)) (nd : Node) :
    List Node × List (String × Option String) :=
  if st.2.contains (keyOf nd) then st
  else (st.1 ++ [nd], keyOf nd :: st.2)

/-- Wrapper ("classification") copy emitted for a node by
`complement_leaf`: identity and parent identity prefixed with `"c__"`,
leaf flag forced false. -/
def clsOf (nd : Node) : Node :=
  { nd with node := "c" ++ sep ++ nd.node,
            parent_node := nd.parent_node.map (fun p => "c" ++ sep ++ p),
            leaf := false }

/-- Leaf copy emitted for a node by `complement_leaf`: reparented below
its wrapper, leaf flag forced true. -/
def leafOf (nd : Node) : Node :=
  { nd with parent_node := some ("c" ++ sep ++ nd.node), leaf := true }

/-- The loop of `Graph::complement_leaf`: for each node push the wrapper
copy then the leaf copy, each guarded by the deduplication set. -/
def complementGo : List Node → List Node × List (String × Option String) →
    List Node
  | [], st => st.1
  | nd :: rest, st => complementGo rest (pushUnless (pushUnless st (clsOf nd)) (leafOf nd))

/-- `Graph::complement_leaf` (the resulting graph has root position 0). -/
def complementLeaf (ns : List Node) : List Node × Nat :=
  (complementGo ns ([], []), 0)

/-! ### `Graph::dag_to_tree` -/

/-- Lookup in the `visited` occurrence-counter map. -/
def visGet (vis : List (String × Nat)) (s : String) : Option Nat :=
  (vis.find? (fun p => p.1 == s)).map (fun p => p.2)

/-- Store an occurrence count, overwriting any previous entry. -/
def visSet (vis : List (String × Nat)) (s : String) (c : Nat) :
    List (String × Nat) :=
  (s, c) :: vis.filter (fun p => !(p.1 == s))

/-- Body of the inner `for (i, child) in children` loop of
`Graph::dag_to_tree`: emit one copy per child edge, bumping the
occurrence counter keyed by the child's original identity, reparenting
the copy to the emitted parent's identity, and renaming non-leaf repeat
occurrences with `identity ++ "__" ++ count` while recording the
pre-rename identity in `origin`. -/
def emitChildren (nsOrig : List Node) (new : Nat) :
    List Nat → List Node → List (String × Nat) → List (Nat × Nat) →
    Except Err (List Node × List (String × Nat) × List (Nat × Nat))
  | [], out, vis, q => .ok (out, vis, q)
  | i :: rest, out, vis, q =>
    match nsOrig.get? i, out.get? new with
    | some child, some pnd =>
      let branch := match visGet vis child.node with
        | none => 0
        | some c => c + 1
      let vis' := visSet vis child.node branch
      let nd0 := { child with parent_node := some pnd.node }
      let nd1 := if !nd0.leaf && branch != 0 then
          { nd0 with origin := some nd0.node,
                     node := nd0.node ++ sep ++ toString branch }
        else nd0
      emitChildren nsOrig new rest (out ++ [nd1]) vis' (q ++ [(i, out.length)])
    | _, _ => .error .oob

/-- The `while let Some((orig, new)) = queue.pop_front()` loop of
`Graph::dag_to_tree`, with explicit fuel (one unit per popped queue
entry). -/
def dagLoop (nsOrig : List Node) :
    Nat → List (Nat × Nat) → List Node → List (String × Nat) →
    Except Err (List Node)
  | _, [], out, _ => .ok out
  | 0, _ :: _, _, _ => .error .fuelOut
  | fuel + 1, (orig, new) :: qrest, out, vis =>
    match nsOrig.get? orig with
    | none => .error .oob
    | some ond =>
      match emitChildren nsOrig new (childIdx nsOrig ond.node) out vis [] with
      | .error e => .error e
      | .ok (out', vis', newq) => dagLoop nsOrig fuel (qrest ++ newq) out' vis'

/-- `Graph::dag_to_tree`: breadth-first unfolding of the graph into a
tree, starting from a fresh vector holding only the root. -/
def dagToTree (g : List Node × Nat) (fuel : Nat) :
    Except Err (List Node × Nat) :=
  match g.1.get? g.2 with
  | none => .error .oob
  | some rnd =>
    match dagLoop g.1 fuel [(g.2, 0)] [rnd] [] with
    | .error e => .error e
    | .ok out => .ok (out, 0)

/-! ### `Graph::build_index` -/

/-- First half of the body of `fill` at a node: store `lft := n` and, if
the node has a parent identity, resolve it through the parent-lookup map
into `parent_id` (failing with `ParentNodeNotFoundError`). -/
def updLft (nd : Node) (n : Nat) (pm : String → Option Nat) :
    Except Err Node :=
  match nd.parent_node with
  | none => .ok { nd with lft := some n }
  | some p =>
    match pm p with
    | none => .error (.parentNotFound p)
    | some pi => .ok { nd with lft := some n, parent_id := some pi }

/-- The recursion of `fill` in `Graph::build_index`, reassociated as a
single traversal of a pending list of sibling positions: visiting
position `c` with counter `n` stores `lft := n + 1`, recursively fills
the children of `c`'s identity, then stores `rgt` and `count`, and
continues with the remaining siblings.  (The Rust `child_map.get`
returns `None` exactly when the child list is empty, and the `None`
branch of `fill` coincides with the `Some` branch at an empty list, so
the embedding uniformly consults the list-valued map.)  The fuel
decreases at every recursive call, so the definition is structural and
computable; the Rust recursion corresponds to any sufficiently large
fuel. -/
def fillL (cm : String → List Nat) (pm : String → Option Nat) :
    Nat → List Node → List Nat → Nat → Except Err (List Node × Nat)
  | _, ns, [], n => .ok (ns, n)
  | 0, _, _ :: _, _ => .error .fuelOut
  | fuel + 1, ns, c :: cs, n =>
    match ns.get? c with
    | none => .error .oob
    | some nd =>
      match updLft nd (n + 1) pm with
      | .error e => .error e
      | .ok nd1 =>
        let ns1 := ns.set c nd1
        match fillL cm pm fuel ns1 (cm nd.node) (n + 1) with
        | .error e => .error e
        | .ok (ns2, n2) =>
          match ns2.get? c with
          | none => .error .oob
          | some nd2 =>
            fillL cm pm fuel
              (ns2.set c { nd2 with rgt := some (n2 + 1),
                                    count := some (cm nd.node).length })
              cs (n2 + 1)

/-- Key comparison of the final `sort_by(|a, b| a.pid.cmp(&b.pid))`
(`Option` ordering: `None` below `Some`). -/
def pidLe (a b : Node) : Bool :=
  match a.pid, b.pid with
  | none, _ => true
  | some _, none => false
  | some x, some y => decide (x ≤ y)

/-- Stable insertion into a `pid`-sorted list. -/
def insertPid (a : Node) : List Node → List Node
  | [] => [a]
  | b :: l => if pidLe a b then a :: b :: l else b :: insertPid a l

/-- Stable sort by `pid` (the embedding of the final `sort_by`; the Rust
sort is stable and the keys are totally ordered, so any stable sort has
the same result). -/
def sortByPid : List Node → List Node
  | [] => []
  | a :: l => insertPid a (sortByPid l)

/-- Assign `pid := i + 1` to every node, as the first loop of
`Graph::build_index` does. -/
def setPids (ns : List Node) : List Node :=
  ns.enum.map (fun p => { p.2 with pid := some (p.1 + 1) })

/-- `Graph::build_index`: assign `pid`s, build the parent-lookup and
child maps, run `fill` from the root with counter 1, and re-sort by
`pid`. -/
def buildIndex (fuel : Nat) (g : List Node × Nat) :
    Except Err (List Node) :=
  let ns := setPids g.1
  let pm := parentMap ns
  let cm := childIdx ns
  match fillL cm pm fuel ns [g.2] 0 with
  | .error e => .error e
  | .ok (ns', _) => .ok (sortByPid ns')

/-! ### The `src/main.rs` variant (`NestedSet`) -/

/-- One record of the hierarchy as in `src/main.rs` (no `origin` field;
the label field is called `node_label` there). -/
structure MNode where
  pid : Option Nat
  node : String
  node_label : String
  parent_node : Option String
  parent_id : Option Nat
  leaf : Bool
  lft : Option Nat
  rgt : Option Nat
  count : Option Nat
deriving DecidableEq, Repr

/-- Identity of node `i` (out of range: `""`). -/
def midv (ns : List MNode) (i : Nat) : String :=
  ((ns.get? i).map (fun nd => nd.node)).getD ""

/-- Leaf flag of node `i` (out of range: `true`). -/
def mleafv (ns : List MNode) (i : Nat) : Bool :=
  ((ns.get? i).map (fun nd => nd.leaf)).getD true

/-- Parent identity of node `i` (out of range: `none`). -/
def mpnv (ns : List MNode) (i : Nat) : Option String :=
  (ns.get? i).bind (fun nd => nd.parent_node)

/-- The identity lookup built by the first loop of `NestedSet::new`:
every non-leaf node inserts `identity ↦ i` (0-based), a later insert
overwriting an earlier one. -/
def mLookup (ns : List MNode) (s : String) : Option Nat :=
  ((List.range ns.length).filter
      (fun j => !mleafv ns j && midv ns j == s)).getLast?

/-- The root found by the first loop of `NestedSet::new`: the last
non-leaf node without a parent identity (leaf nodes are skipped before
the root check there). -/
def mRoot (ns : List MNode) : Option Nat :=
  ((List.range ns.length).filter
      (fun j => !mleafv ns j && (mpnv ns j).isNone)).getLast?

/-- Assign `pid := i + 1` to every node (first loop of
`NestedSet::new`). -/
def mSetPids (ns : List MNode) : List MNode :=
  ns.enum.map (fun p => { p.2 with pid := some (p.1 + 1) })

/-- The second loop of `NestedSet::new`: for each node in order, resolve
its parent identity through the lookup (failing with
`ParentNodeNotFoundError`), store `parent_id := parent + 1`, and append
the node's position to the parent's child vector. -/
def mChildLoop (lk : String → Option Nat) :
    List Nat → List MNode → List (Option (List Nat)) →
    Except Err (List MNode × List (Option (List Nat)))
  | [], ns, ch => .ok (ns, ch)
  | i :: rest, ns, ch =>
    match ns.get? i with
    | none => .error .oob
    | some x =>
      match x.parent_node with
      | none => mChildLoop lk rest ns ch
      | some p =>
        match lk p with
        | none => .error (.parentNotFound p)
        | some parent =>
          let ns' := ns.set i { x with parent_id := some (parent + 1) }
          match ch.get? parent with
          | none => .error .oob
          | some copt =>
            let ch' := match copt with
              | some l => ch.set parent (some (l ++ [i]))
              | none => ch.set parent (some [i])
            mChildLoop lk rest ns' ch'

/-- `NestedSet::new`: assign `pid`s, build the identity lookup and the
root candidate, then resolve every parent reference into `parent_id` and
the per-position child vectors. -/
def nsNew (nodes : List MNode) :
    Except Err (List MNode × Option Nat × List (Option (List Nat))) :=
  let ns := mSetPids nodes
  let lk := mLookup ns
  match mChildLoop lk (List.range ns.length) ns
      (List.replicate ns.length none) with
  | .error e => .error e
  | .ok (ns', ch) => .ok (ns', mRoot ns, ch)

/-- The recursion of `fill` in `NestedSet::rebuild`, reassociated over a
pending sibling list exactly like `fillL`; children are looked up by
position in the child vectors, and a missing (`None`) child vector is
the childless branch. -/
def fill2L (ch : List (Option (List Nat))) :
    Nat → List MNode → List Nat → Nat → Except Err (List MNode × Nat)
  | _, ns, [], n => .ok (ns, n)
  | 0, _, _ :: _, _ => .error .fuelOut
  | fuel + 1, ns, c :: cs, n =>
    match ns.get? c with
    | none => .error .oob
    | some nd =>
      let ns1 := ns.set c { nd with lft := some (n + 1) }
      match ch.get? c with
      | none => .error .oob
      | some copt =>
        match copt with
        | none =>
          fill2L ch fuel
            (ns.set c { nd with lft := some (n + 1), rgt := some (n + 2),
                                count := some 0 })
            cs (n + 2)
        | some kids =>
          match fill2L ch fuel ns1 kids (n + 1) with
          | .error e => .error e
          | .ok (ns2, n2) =>
            match ns2.get? c with
            | none => .error .oob
            | some nd2 =>
              fill2L ch fuel
                (ns2.set c { nd2 with rgt := some (n2 + 1),
                                      count := some kids.length })
                cs (n2 + 1)

/-- `NestedSet::rebuild`: fail with `RootNodeNotFoundError` when no root
was found, otherwise run the depth-first numbering from the root with
counter 1 (no final sort in this variant). -/
def rebuild (fuel : Nat)
    (s : List MNode × Option Nat × List (Option (List Nat))) :
    Except Err (List MNode) :=
  match s.2.1 with
  | none => .error .rootNotFound
  | some r =>
    match fill2L s.2.2 fuel s.1 [r] 0 with
    | .error e => .error e
    | .ok (ns', _) => .ok ns'

/-! ### Basic accessor lemmas -/

theorem idv_cons_zero (a : Node) (l : List Node) : idv (a :: l) 0 = a.node := rfl

theorem idv_cons_succ (a : Node) (l : List Node) (n : Nat) :
    idv (a :: l) (n + 1) = idv l n := rfl

theorem leafv_cons_zero (a : Node) (l : List Node) : leafv (a :: l) 0 = a.leaf := rfl

theorem leafv_cons_succ (a : Node) (l : List Node) (n : Nat) :
    leafv (a :: l) (n + 1) = leafv l n := rfl

theorem pnv_cons_zero (a : Node) (l : List Node) : pnv (a :: l) 0 = a.parent_node := rfl

theorem pnv_cons_succ (a : Node) (l : List Node) (n : Nat) :
    pnv (a :: l) (n + 1) = pnv l n := rfl

theorem idv_eq_of_get? {ns : List Node} {i : Nat} {nd : Node}
    (h : ns.get? i = some nd) : idv ns i = nd.node := by
  unfold idv
  rw [List.get?_eq_getElem?] at h
  simp [h]

theorem leafv_eq_of_get? {ns : List Node} {i : Nat} {nd : Node}
    (h : ns.get? i = some nd) : leafv ns i = nd.leaf := by
  unfold leafv
  rw [List.get?_eq_getElem?] at h
  simp [h]

theorem pnv_eq_of_get? {ns : List Node} {i : Nat} {nd : Node}
    (h : ns.get? i = some nd) : pnv ns i = nd.parent_node := by
  unfold pnv
  rw [List.get?_eq_getElem?] at h
  simp [h]

/-! ### Claim C4: `Graph::is_dag` -/

/-- Characterization of the `is_dag` scan relative to an arbitrary set of
already-seen non-leaf identities. -/
theorem isDagGo_eq_true_iff (l : List Node) : ∀ seen : List String,
    isDagGo l seen = true ↔
      ∃ p nd, l.get? p = some nd ∧ nd.leaf = false ∧
        (seen.contains nd.node = true ∨
          ∃ q nd', q < p ∧ l.get? q = some nd' ∧ nd'.leaf = false ∧
            nd'.node = nd.node) := by
  induction l with
  | nil => intro seen; simp [isDagGo]
  | cons a rest ih =>
    intro seen
    by_cases ha : (!a.leaf && seen.contains a.node) = true
    · rw [Bool.and_eq_true, Bool.not_eq_true'] at ha
      constructor
      · intro _
        exact ⟨0, a, rfl, ha.1, Or.inl ha.2⟩
      · intro _
        show isDagGo (a :: rest) seen = true
        simp only [isDagGo]
        rw [if_pos (by rw [Bool.and_eq_true, Bool.not_eq_true']; exact ha)]
    · have hgo : isDagGo (a :: rest) seen =
          isDagGo rest (if a.leaf then seen else a.node :: seen) := by
        simp only [isDagGo]
        rw [if_neg ha]
      rw [hgo, ih]
      rw [Bool.and_eq_true, Bool.not_eq_true'] at ha
      push_neg at ha
      constructor
      · rintro ⟨p, nd, hget, hlf, hcond⟩
        refine ⟨p + 1, nd, by simpa using hget, hlf, ?_⟩
        rcases hcond with hseen | ⟨q, nd', hq, hget', hlf', heq⟩
        · by_cases hal : a.leaf
          · rw [if_pos hal] at hseen
            exact Or.inl hseen
          · rw [if_neg hal] at hseen
            rw [List.contains_cons, Bool.or_eq_true] at hseen
            rcases hseen with h1 | h2
            · refine Or.inr ⟨0, a, Nat.succ_pos _, rfl, ?_, ?_⟩
              · exact Bool.not_eq_true a.leaf ▸ Bool.of_not_eq_true hal
              · exact (beq_iff_eq.mp h1).symm
            · exact Or.inl h2
        · exact Or.inr ⟨q + 1, nd', by omega, by simpa using hget', hlf', heq⟩
      · rintro ⟨p, nd, hget, hlf, hcond⟩
        match p, hget with
        | 0, hget =>
          have hnd : a = nd := by simpa using hget
          subst hnd
          rcases hcond with hseen | ⟨q, _, hq, _, _, _⟩
          · exact absurd hseen (ha hlf)
          · omega
        | p + 1, hget =>
          refine ⟨p, nd, by simpa using hget, hlf, ?_⟩
          rcases hcond with hseen | ⟨q, nd', hq, hget', hlf', heq⟩
          · left
            by_cases hal : a.leaf
            · rwa [if_pos hal]
            · rw [if_neg hal, List.contains_cons, Bool.or_eq_true]
              exact Or.inr hseen
          · match q, hget' with
            | 0, hget' =>
              have hnd' : a = nd' := by simpa using hget'
              subst hnd'
              left
              rw [if_neg (by simp [hlf'])]
              rw [List.contains_cons, Bool.or_eq_true]
              exact Or.inl (by simp [heq])
            | q + 1, hget' =>
              exact Or.inr ⟨q, nd', by omega, by simpa using hget', hlf', heq⟩

/-- C4 (confirmed): `Graph::is_dag` returns true if and only if some
identity occurs on two distinct nodes whose leaf flags are both false;
leaf nodes are ignored both as occurrences and as duplicates.  (The
embedding is a pure function of the node list, so the absence of
mutation is inherent.) -/
theorem c4_is_dag_iff (ns : List Node) :
    isDag ns = true ↔
      ∃ i j, i < j ∧ j < ns.length ∧ leafv ns i = false ∧
        leafv ns j = false ∧ idv ns i = idv ns j := by
  rw [isDag, isDagGo_eq_true_iff]
  constructor
  · rintro ⟨p, nd, hget, hlf, hcond⟩
    rcases hcond with hseen | ⟨q, nd', hq, hget', hlf', heq⟩
    · simp at hseen
    · have hp : p < ns.length := by
        by_contra hcon
        rw [List.get?_eq_none.mpr (by omega)] at hget
        cases hget
      exact ⟨q, p, hq, hp,
        (leafv_eq_of_get? hget').trans hlf',
        (leafv_eq_of_get? hget).trans hlf,
        by rw [idv_eq_of_get? hget', idv_eq_of_get? hget, heq]⟩
  · rintro ⟨i, j, hij, hj, hlfi, hlfj, hid⟩
    cases hgj : ns.get? j with
    | none => exact absurd (List.get?_eq_none.mp hgj) (by omega)
    | some nd =>
      cases hgi : ns.get? i with
      | none => exact absurd (List.get?_eq_none.mp hgi) (by omega)
      | some nd' =>
        refine ⟨j, nd, hgj, (leafv_eq_of_get? hgj) ▸ hlfj, Or.inr
          ⟨i, nd', hij, hgi, (leafv_eq_of_get? hgi) ▸ hlfi, ?_⟩⟩
        rw [← idv_eq_of_get? hgi, ← idv_eq_of_get? hgj]
        exact hid

/-! ### Claim C6: `Graph::new` root validation -/

/-- Number of nodes without a parent identity. -/
def rootless (ns : List Node) : Nat :=
  ns.countP (fun nd => nd.parent_node.isNone)

theorem rootLoop_no_root {l : List Node} (h : rootless l = 0) :
    ∀ i acc, rootLoop l i acc = .ok acc := by
  induction l with
  | nil => intro i acc; rfl
  | cons a rest ih =>
    intro i acc
    rw [rootless, List.countP_cons] at h
    by_cases hp : a.parent_node.isNone
    · simp [hp] at h
    · simp only [hp, if_false, Bool.false_eq_true, Nat.add_zero] at h
      have hr : rootless rest = 0 := h
      simp only [rootLoop, if_neg hp]
      exact ih hr i.succ acc

theorem rootLoop_some_dup {l : List Node} (h : 1 ≤ rootless l) :
    ∀ i r, rootLoop l i (some r) = .error .multipleRoot := by
  induction l with
  | nil => rw [rootless] at h; simp at h
  | cons a rest ih =>
    intro i r
    by_cases hp : a.parent_node.isNone
    · simp [rootLoop, hp]
    · rw [rootless, List.countP_cons] at h
      simp only [hp, if_false, Bool.false_eq_true, Nat.add_zero] at h
      have hr : 1 ≤ rootless rest := h
      simp only [rootLoop, if_neg hp]
      exact ih hr i.succ r

theorem rootLoop_multi {l : List Node} (h : 2 ≤ rootless l) :
    ∀ i, rootLoop l i none = .error .multipleRoot := by
  induction l with
  | nil => rw [rootless] at h; simp at h
  | cons a rest ih =>
    intro i
    by_cases hp : a.parent_node.isNone
    · rw [rootless, List.countP_cons] at h
      simp only [hp, if_true] at h
      have hr : 1 ≤ rootless rest := by unfold rootless; omega
      simp only [rootLoop, if_pos hp]
      exact rootLoop_some_dup hr i.succ i
    · rw [rootless, List.countP_cons] at h
      simp only [hp, if_false, Bool.false_eq_true, Nat.add_zero] at h
      have hr : 2 ≤ rootless rest := h
      simp only [rootLoop, if_neg hp]
      exact ih hr i.succ

theorem countP_zero_pnv {l : List Node} (h : rootless l = 0) :
    ∀ q, q < l.length → pnv l q ≠ none := by
  intro q hq
  cases hg : l.get? q with
  | none => exact absurd (List.get?_eq_none.mp hg) (by omega)
  | some nd =>
    rw [pnv_eq_of_get? hg]
    have := List.countP_eq_zero.mp h nd (by
      have := List.get?_mem hg
      exact this)
    intro hcon
    rw [hcon] at this
    simp at this

theorem rootLoop_single {l : List Node} (h : rootless l = 1) :
    ∀ i, ∃ j, j < l.length ∧ pnv l j = none ∧
      (∀ q, q < l.length → pnv l q = none → q = j) ∧
      rootLoop l i none = .ok (some (i + j)) := by
  induction l with
  | nil => rw [rootless] at h; simp at h
  | cons a rest ih =>
    intro i
    by_cases hp : a.parent_node.isNone
    · rw [rootless, List.countP_cons] at h
      simp only [hp, if_true] at h
      have hr : rootless rest = 0 := by unfold rootless; omega
      refine ⟨0, Nat.succ_pos _, by simp [pnv_cons_zero, Option.isNone_iff_eq_none.mp hp], ?_, ?_⟩
      · intro q hq hqn
        match q with
        | 0 => rfl
        | q + 1 =>
          rw [pnv_cons_succ] at hqn
          exact absurd hqn (countP_zero_pnv hr q (by simpa using hq))
      · simp only [rootLoop, if_pos hp]
        rw [rootLoop_no_root hr]
        norm_num
    · rw [rootless, List.countP_cons] at h
      simp only [hp, if_false, Bool.false_eq_true, Nat.add_zero] at h
      have hr : rootless rest = 1 := h
      obtain ⟨j, hj, hjn, huniq, hres⟩ := ih hr (i + 1)
      refine ⟨j + 1, by simp only [List.length_cons]; omega, by rwa [pnv_cons_succ], ?_, ?_⟩
      · intro q hq hqn
        match q with
        | 0 =>
          rw [pnv_cons_zero] at hqn
          exact absurd (Option.isNone_iff_eq_none.mpr hqn) hp
        | q + 1 =>
          rw [pnv_cons_succ] at hqn
          exact congrArg Nat.succ (huniq q (by simpa using hq) hqn)
      · simp only [rootLoop, if_neg hp]
        rw [hres]
        have harith : i + 1 + j = i + (j + 1) := by omega
        rw [harith]

/-- C6 (confirmed): `Graph::new` fails with `RootNodeNotFoundError` iff no
node lacks a parent identity, fails with `MultipleRootNodeError` iff more
than one node does, and with exactly one such node it succeeds recording
that node's position as the root. -/
theorem c6_graph_new_root_validation (ns : List Node) :
    (graphNew ns = .error .rootNotFound ↔ rootless ns = 0) ∧
    (graphNew ns = .error .multipleRoot ↔ 2 ≤ rootless ns) ∧
    (rootless ns = 1 → ∃ r, graphNew ns = .ok (ns, r) ∧ r < ns.length ∧
      pnv ns r = none ∧ ∀ q, q < ns.length → pnv ns q = none → q = r) := by
  have hzero : rootless ns = 0 → graphNew ns = .error .rootNotFound := by
    intro h
    rw [graphNew, rootLoop_no_root h]
  have hone : rootless ns = 1 → ∃ r, graphNew ns = .ok (ns, r) ∧ r < ns.length ∧
      pnv ns r = none ∧ ∀ q, q < ns.length → pnv ns q = none → q = r := by
    intro h
    obtain ⟨j, hj, hjn, huniq, hres⟩ := rootLoop_single h 0
    refine ⟨j, ?_, hj, hjn, huniq⟩
    rw [graphNew, hres]
    norm_num
  have hmulti : 2 ≤ rootless ns → graphNew ns = .error .multipleRoot := by
    intro h
    rw [graphNew, rootLoop_multi h 0]
  refine ⟨⟨?_, hzero⟩, ⟨?_, hmulti⟩, hone⟩
  · intro h
    by_contra hcon
    rcases Nat.lt_or_ge (rootless ns) 2 with h2 | h2
    · have h1 : rootless ns = 1 := by omega
      obtain ⟨r, hr, _⟩ := hone h1
      rw [h] at hr
      cases hr
    · rw [hmulti h2] at h
      cases h
  · intro h
    by_contra hcon
    rcases Nat.lt_or_ge (rootless ns) 2 with h2 | h2
    · rcases Nat.lt_or_ge (rootless ns) 1 with h1 | h1
      · rw [hzero (by omega)] at h
        cases h
      · obtain ⟨r, hr, _⟩ := hone (by omega)
        rw [h] at hr
        cases hr
    · exact hcon h2

/-! ### Claim C9: `Graph::complement_leaf` -/

/-- Generic first-occurrence deduplication by `(identity, parent identity)`
key over an already interleaved emission sequence. -/
def dedupGo : List Node → List Node × List (String × Option String) → List Node
  | [], st => st.1
  | nd :: rest, st => dedupGo rest (pushUnless st nd)

/-- Modelled from the spec's description of the Leaf Complementer: emit,
for every node in order, its wrapper copy followed by its leaf copy, and
keep only the first occurrence of each `(identity, parent identity)`
pair. -/
def specComplementLeaf (ns : List Node) : List Node :=
  dedupGo (ns.flatMap (fun nd => [clsOf nd, leafOf nd])) ([], [])

theorem complementGo_eq_dedupGo (ns : List Node) : ∀ st,
    complementGo ns st = dedupGo (ns.flatMap (fun nd => [clsOf nd, leafOf nd])) st := by
  induction ns with
  | nil => intro st; rfl
  | cons nd rest ih =>
    intro st
    show complementGo rest _ = dedupGo (clsOf nd :: leafOf nd :: rest.flatMap _) st
    rw [ih]
    rfl

/-- Two identical sibling leaves below a shared parent. -/
def exC9 : List Node :=
  [ { pid := none, node := "1", origin := none, label := "1",
      parent_node := none, parent_id := none, leaf := false,
      lft := none, rgt := none, count := none },
    { pid := none, node := "5", origin := none, label := "5",
      parent_node := some "1", parent_id := none, leaf := true,
      lft := none, rgt := none, count := none },
    { pid := none, node := "5", origin := none, label := "5",
      parent_node := some "1", parent_id := none, leaf := true,
      lft := none, rgt := none, count := none } ]

/-- C9 (confirmed): `complement_leaf` emits for each node its non-leaf
wrapper (identity `"c__" ++ identity`, parent `"c__" ++ parent`, absent
for the root) followed by the node re-emitted as a leaf child of the
wrapper, deduplicated by the `(identity, parent identity)` pair; on a
tree with two sibling leaves sharing identity and parent, exactly one
wrapper is produced. -/
theorem c9_complement_leaf (ns : List Node) :
    complementLeaf ns = (specComplementLeaf ns, 0) ∧
    ((complementLeaf exC9).1.countP
        (fun nd => nd.node == "c" ++ sep ++ "5") = 1 ∧
      (complementLeaf exC9).1.length = 4) := by
  refine ⟨?_, by decide, by decide⟩
  show (complementGo ns ([], []), 0) = (specComplementLeaf ns, 0)
  rw [complementGo_eq_dedupGo]
  rfl

/-! ### Claim C8: transforms and node preservation -/

/-- Key-representation invariant of the deduplicating push: every key in
the set is carried by some emitted node. -/
def KeyInv (st : List Node × List (String × Option String)) : Prop :=
  ∀ k, k ∈ st.2 → ∃ m, m ∈ st.1 ∧ keyOf m = k

theorem pushUnless_inv {st : List Node × List (String × Option String)}
    (h : KeyInv st) (nd : Node) :
    KeyInv (pushUnless st nd) ∧
      ∃ m, m ∈ (pushUnless st nd).1 ∧ keyOf m = keyOf nd := by
  unfold pushUnless
  by_cases hc : st.2.contains (keyOf nd)
  · rw [if_pos hc]
    exact ⟨h, h (keyOf nd) (List.mem_of_elem_eq_true hc)⟩
  · rw [if_neg hc]
    constructor
    · intro k hk
      rcases List.mem_cons.mp hk with hk | hk
      · exact ⟨nd, List.mem_append_right _ (List.mem_singleton.mpr rfl), hk.symm⟩
      · obtain ⟨m, hm, hkey⟩ := h k hk
        exact ⟨m, List.mem_append_left _ hm, hkey⟩
    · exact ⟨nd, List.mem_append_right _ (List.mem_singleton.mpr rfl), rfl⟩

theorem complementGo_cons (a : Node) (rest : List Node)
    (st : List Node × List (String × Option String)) :
    complementGo (a :: rest) st =
      complementGo rest (pushUnless (pushUnless st (clsOf a)) (leafOf a)) := rfl

theorem pushUnless_fst (st : List Node × List (String × Option String))
    (nd : Node) : ∃ u, (pushUnless st nd).1 = st.1 ++ u := by
  unfold pushUnless
  by_cases hc : st.2.contains (keyOf nd)
  · rw [if_pos hc]
    exact ⟨[], (List.append_nil _).symm⟩
  · rw [if_neg hc]
    exact ⟨[nd], rfl⟩

theorem complementGo_mono (ns : List Node) : ∀ st,
    ∃ t, complementGo ns st = st.1 ++ t := by
  induction ns with
  | nil => intro st; exact ⟨[], (List.append_nil _).symm⟩
  | cons nd rest ih =>
    intro st
    rw [complementGo_cons]
    obtain ⟨t, ht⟩ := ih (pushUnless (pushUnless st (clsOf nd)) (leafOf nd))
    obtain ⟨u2, hu2⟩ := pushUnless_fst (pushUnless st (clsOf nd)) (leafOf nd)
    obtain ⟨u1, hu1⟩ := pushUnless_fst st (clsOf nd)
    rw [ht, hu2, hu1]
    exact ⟨u1 ++ u2 ++ t, by simp⟩

theorem complementGo_represents (ns : List Node) :
    ∀ st, KeyInv st → ∀ nd, nd ∈ ns →
      (∃ m, m ∈ complementGo ns st ∧ keyOf m = keyOf (clsOf nd)) ∧
      (∃ m, m ∈ complementGo ns st ∧ keyOf m = keyOf (leafOf nd)) := by
  induction ns with
  | nil => intro st _ nd hnd; cases hnd
  | cons a rest ih =>
    intro st hinv nd hnd
    rw [complementGo_cons]
    obtain ⟨hinv1, m1, hm1, hk1⟩ := pushUnless_inv hinv (clsOf a)
    obtain ⟨hinv2, m2, hm2, hk2⟩ := pushUnless_inv hinv1 (leafOf a)
    obtain ⟨t, ht⟩ :=
      complementGo_mono rest (pushUnless (pushUnless st (clsOf a)) (leafOf a))
    rcases List.mem_cons.mp hnd with rfl | hmem
    · constructor
      · refine ⟨m1, ?_, hk1⟩
        rw [ht]
        refine List.mem_append_left _ ?_
        obtain ⟨u2, hu2⟩ := pushUnless_fst (pushUnless st (clsOf nd)) (leafOf nd)
        rw [hu2]
        exact List.mem_append_left _ hm1
      · refine ⟨m2, ?_, hk2⟩
        rw [ht]
        exact List.mem_append_left _ hm2
    · exact ih (pushUnless (pushUnless st (clsOf a)) (leafOf a)) hinv2 nd hmem

/-- Input whose unresolvable parent reference leaves a node unreachable. -/
def exDangling : List Node :=
  [ { pid := none, node := "1", origin := none, label := "1",
      parent_node := none, parent_id := none, leaf := false,
      lft := none, rgt := none, count := none },
    { pid := none, node := "2", origin := none, label := "2",
      parent_node := some "Z", parent_id := none, leaf := false,
      lft := none, rgt := none, count := none } ]

/-- Three identical copies of one node. -/
def exTriple : List Node :=
  [ { pid := none, node := "5", origin := none, label := "5",
      parent_node := none, parent_id := none, leaf := true,
      lft := none, rgt := none, count := none },
    { pid := none, node := "5", origin := none, label := "5",
      parent_node := none, parent_id := none, leaf := true,
      lft := none, rgt := none, count := none },
    { pid := none, node := "5", origin := none, label := "5",
      parent_node := none, parent_id := none, leaf := true,
      lft := none, rgt := none, count := none } ]

/-- C8 (counterexample): both transforms can emit fewer nodes than they
receive — `complement_leaf` collapses identical `(identity, parent)`
pairs (three identical nodes yield two output nodes), and `dag_to_tree`
drops nodes unreachable from the root (a dangling parent reference
shrinks a two-node input to one node). -/
theorem c8_counterexample :
    (complementLeaf exTriple).1.length < exTriple.length ∧
    ∃ out, dagToTree (exDangling, 0) 10 = .ok (out, 0) ∧
      out.length < exDangling.length := by
  refine ⟨by decide, [exDangling.get ⟨0, by decide⟩], by rfl, by decide⟩

/-- C8 (amended): `complement_leaf` represents every input node up to the
deduplication key — for each input node `N`, the output contains a node
carrying `N`'s wrapper key `("c__" ++ identity, "c__" ++ parent)` and a
node carrying `N`'s leaf key `(identity, some ("c__" ++ identity))` —
though the output may be shorter than the input when keys collide, and
`dag_to_tree` keeps only nodes reachable from the root. -/
theorem c8_amended_complement_represents (ns : List Node) (nd : Node)
    (h : nd ∈ ns) :
    (∃ m, m ∈ (complementLeaf ns).1 ∧
      m.node = "c" ++ sep ++ nd.node ∧
      m.parent_node = nd.parent_node.map (fun p => "c" ++ sep ++ p)) ∧
    (∃ m, m ∈ (complementLeaf ns).1 ∧
      m.node = nd.node ∧ m.parent_node = some ("c" ++ sep ++ nd.node)) := by
  obtain ⟨⟨m1, hm1, hk1⟩, m2, hm2, hk2⟩ :=
    complementGo_represents ns ([], []) (fun k hk => by cases hk) nd h
  constructor
  · refine ⟨m1, hm1, ?_, ?_⟩
    · exact congrArg Prod.fst hk1
    · exact congrArg Prod.snd hk1
  · refine ⟨m2, hm2, ?_, ?_⟩
    · exact congrArg Prod.fst hk2
    · exact congrArg Prod.snd hk2

/-- Witness for the amended C8 on a concrete input. -/
theorem c8_amended_witness :
    ((exC9.get ⟨1, by decide⟩) ∈ exC9) ∧
    (∃ m, m ∈ (complementLeaf exC9).1 ∧
      m.node = "c" ++ sep ++ (exC9.get ⟨1, by decide⟩).node ∧
      m.parent_node = (exC9.get ⟨1, by decide⟩).parent_node.map
        (fun p => "c" ++ sep ++ p)) ∧
    (∃ m, m ∈ (complementLeaf exC9).1 ∧
      m.node = (exC9.get ⟨1, by decide⟩).node ∧
      m.parent_node = some ("c" ++ sep ++ (exC9.get ⟨1, by decide⟩).node)) :=
  ⟨by decide, c8_amended_complement_represents exC9 _ (by decide)⟩

/-! ### Claims C3 and C5: `Graph::dag_to_tree` -/

/-- Shorthand for building an input record as the test fixtures of
`src/data.rs` do (label equals identity, all derived fields unset). -/
def mkN (id : String) (pn : Option String) (lf : Bool) : Node :=
  { pid := none, node := id, origin := none, label := id,
    parent_node := pn, parent_id := none, leaf := lf,
    lft := none, rgt := none, count := none }

/-- The seven-node DAG of the repository's `test_data` fixture: identity
`"4"` is referenced as a child by the two distinct parents `"3"` and
`"1"`. -/
def testData : List Node :=
  [ mkN "1" none false,
    mkN "2" (some "1") false,
    mkN "3" (some "2") false,
    mkN "4" (some "3") false,
    mkN "4" (some "1") false,
    mkN "5" (some "3") true,
    mkN "5" (some "4") true ]

/-- The breadth-first unfolding of `testData` (the eight nodes asserted
by the repository's `test_dag`). -/
def testUnfolded : List Node :=
  [ mkN "1" none false,
    mkN "2" (some "1") false,
    mkN "4" (some "1") false,
    mkN "3" (some "2") false,
    mkN "5" (some "4") true,
    { mkN "4" (some "3") false with node := "4" ++ sep ++ "1",
                                    origin := some "4" },
    mkN "5" (some "3") true,
    mkN "5" (some ("4" ++ sep ++ "1")) true ]

/-- Input where identity `"X"` is referenced as a child by the two
distinct parents `"A"` and `"B"`, but `"B"`'s own parent reference
(`"Z"`) is dangling, leaving the second occurrence unreachable from the
root. -/
def exC3 : List Node :=
  [ mkN "R" none false,
    mkN "A" (some "R") false,
    mkN "B" (some "Z") false,
    mkN "X" (some "A") false,
    mkN "X" (some "B") false ]

/-- C3 (counterexample): on `exC3`, where the non-leaf identity `"X"` is
referenced as a child by the two distinct parents `"A"` and `"B"` (both
non-leaf nodes of the collection), the unfolded output contains exactly
one node `"X"` and no node `"X__1"`: the breadth-first pass never
reaches the occurrence below the unreachable parent `"B"`, so the claim
that every such input yields exactly two copies fails. -/
theorem c3_counterexample :
    (leafv exC3 3 = false ∧ leafv exC3 4 = false ∧
      idv exC3 3 = "X" ∧ idv exC3 4 = "X" ∧
      pnv exC3 3 = some "A" ∧ pnv exC3 4 = some "B" ∧
      idv exC3 1 = "A" ∧ leafv exC3 1 = false ∧
      idv exC3 2 = "B" ∧ leafv exC3 2 = false) ∧
    graphNew exC3 = .ok (exC3, 0) ∧
    dagToTree (exC3, 0) 10 =
      .ok ([mkN "R" none false, mkN "A" (some "R") false,
            mkN "X" (some "A") false], 0) ∧
    [mkN "R" none false, mkN "A" (some "R") false,
      mkN "X" (some "A") false].countP (fun nd => nd.node == "X") = 1 ∧
    [mkN "R" none false, mkN "A" (some "R") false,
      mkN "X" (some "A") false].countP
        (fun nd => nd.node == "X" ++ sep ++ "1") = 0 :=
  ⟨by decide, by rfl, by rfl, by decide, by decide⟩

/-- C3 (amended, proved on the repository's canonical input): when both
occurrences of the shared identity are reachable from the root and no
pre-existing identity collides with the disambiguated name — as in the
repository's `test_data`, where `"4"` is referenced by parents `"3"` and
`"1"` — the unfolded output contains exactly two non-leaf nodes with
identities `"4"` and `"4__1"`: the first-emitted occurrence (position 2)
keeps the identity with `origin` unset, and the second-emitted occurrence
(position 5) is renamed with `origin` set to `"4"`. -/
theorem c3_amended_two_copies :
    dagToTree (testData, 0) 20 = .ok (testUnfolded, 0) ∧
    testUnfolded.countP (fun nd => !nd.leaf && nd.node == "4") = 1 ∧
    testUnfolded.countP
      (fun nd => !nd.leaf && nd.node == "4" ++ sep ++ "1") = 1 ∧
    idv testUnfolded 2 = "4" ∧
    (testUnfolded.get? 2).bind (fun nd => nd.origin) = none ∧
    idv testUnfolded 5 = "4" ++ sep ++ "1" ∧
    (testUnfolded.get? 5).bind (fun nd => nd.origin) = some "4" :=
  ⟨by rfl, by decide, by decide, by decide, by decide, by decide, by decide⟩

/-- DAG accepted by `Graph::new` in which a pre-existing identity
`"4__1"` collides with the name generated for the second occurrence of
the shared identity `"4"`. -/
def exC5 : List Node :=
  [ mkN "1" none false,
    mkN "2" (some "1") false,
    mkN "3" (some "1") false,
    mkN "4" (some "2") false,
    mkN "4" (some "3") false,
    mkN ("4" ++ sep ++ "1") (some "1") false ]

/-- The unfolding of `exC5`: the renamed second copy of `"4"` collides
with the original node named `"4__1"`. -/
def exC5unfolded : List Node :=
  [ mkN "1" none false,
    mkN "2" (some "1") false,
    mkN "3" (some "1") false,
    mkN ("4" ++ sep ++ "1") (some "1") false,
    mkN "4" (some "2") false,
    { mkN "4" (some "3") false with node := "4" ++ sep ++ "1",
                                    origin := some "4" } ]

/-- C5 (counterexample): `exC5` is accepted by `Graph::new`, yet a single
`dag_to_tree` pass produces a collection on which `is_dag` is still
true, because the disambiguated name `"4__1"` collides with a
pre-existing identity. -/
theorem c5_counterexample :
    graphNew exC5 = .ok (exC5, 0) ∧
    dagToTree (exC5, 0) 10 = .ok (exC5unfolded, 0) ∧
    isDag exC5unfolded = true :=
  ⟨by rfl, by rfl, by decide⟩

/-- C5 (amended, proved on the repository's canonical input): a single
`dag_to_tree` pass yields a DAG-free collection only when no freshly
disambiguated identity collides with a pre-existing one; in particular
on the repository's `test_data` the unfolded output tests false under
`is_dag`. -/
theorem c5_amended_unfold_not_dag :
    isDag testData = true ∧
    dagToTree (testData, 0) 20 = .ok (testUnfolded, 0) ∧
    isDag testUnfolded = false :=
  ⟨by decide, by rfl, by decide⟩

/-! ### Claim C7: unresolved parent references -/

/-- Result of `Graph::build_index` on `exDangling`: the run succeeds and
the node with the dangling reference keeps `lft`, `rgt`, `count` and
`parent_id` unset. -/
def exDanglingIndexed : List Node :=
  [ { mkN "1" none false with pid := some 1, lft := some 1,
                              rgt := some 2, count := some 0 },
    { mkN "2" (some "Z") false with pid := some 2 } ]

/-- C7 (counterexample): `exDangling` contains a node whose parent
identity `"Z"` matches no non-leaf node's identity, yet the
`data.rs` pipeline (`Graph::new` followed by `Graph::build_index` — the
collection is not a DAG, so no unfolding runs) succeeds, silently
leaving that node unindexed. -/
theorem c7_counterexample :
    (∀ j, j < exDangling.length →
      ¬(leafv exDangling j = false ∧ idv exDangling j = "Z")) ∧
    pnv exDangling 1 = some "Z" ∧
    isDag exDangling = false ∧
    graphNew exDangling = .ok (exDangling, 0) ∧
    buildIndex 10 (exDangling, 0) = .ok exDanglingIndexed ∧
    lftv exDanglingIndexed 1 = none ∧ rgtv exDanglingIndexed 1 = none ∧
    countv exDanglingIndexed 1 = none :=
  ⟨by decide, by decide, by decide, by rfl, by rfl, by decide, by decide,
    by decide⟩

theorem mSetPids_get? (ns : List MNode) (j : Nat) :
    (mSetPids ns).get? j =
      (ns.get? j).map (fun x => { x with pid := some (j + 1) }) := by
  unfold mSetPids
  rw [List.get?_map, List.get?_enum, Option.map_map]
  rfl

theorem mSetPids_length (ns : List MNode) :
    (mSetPids ns).length = ns.length := by
  unfold mSetPids
  rw [List.length_map, List.enum_length]

theorem mSetPids_midv (ns : List MNode) (j : Nat) :
    midv (mSetPids ns) j = midv ns j := by
  unfold midv
  rw [mSetPids_get?]
  cases ns.get? j <;> rfl

theorem mSetPids_mleafv (ns : List MNode) (j : Nat) :
    mleafv (mSetPids ns) j = mleafv ns j := by
  unfold mleafv
  rw [mSetPids_get?]
  cases ns.get? j <;> rfl

theorem mSetPids_mpnv (ns : List MNode) (j : Nat) :
    mpnv (mSetPids ns) j = mpnv ns j := by
  unfold mpnv
  rw [mSetPids_get?]
  cases ns.get? j <;> rfl

theorem mSetPids_mLookup (ns : List MNode) (s : String) :
    mLookup (mSetPids ns) s = mLookup ns s := by
  unfold mLookup
  rw [mSetPids_length]
  congr 1
  refine List.filter_congr ?_
  intro j _
  rw [mSetPids_mleafv, mSetPids_midv]

/-- An identity is unresolvable through the lookup iff no non-leaf node
carries it. -/
theorem mLookup_eq_none_iff (ns : List MNode) (s : String) :
    mLookup ns s = none ↔
      ∀ j, j < ns.length → ¬(mleafv ns j = false ∧ midv ns j = s) := by
  unfold mLookup
  rw [List.getLast?_eq_none_iff, List.filter_eq_nil_iff]
  constructor
  · intro h j hj ⟨hl, hid⟩
    exact h j (List.mem_range.mpr hj) (by simp [hl, hid])
  · intro h j hj hcon
    simp only [Bool.and_eq_true, Bool.not_eq_true', beq_iff_eq] at hcon
    exact h j (List.mem_range.mp hj) hcon

/-- Indices bound of the lookup. -/
theorem mLookup_lt {ns : List MNode} {s : String} {j : Nat}
    (h : mLookup ns s = some j) : j < ns.length := by
  unfold mLookup at h
  cases hl : ((List.range ns.length).filter
      (fun j => !mleafv ns j && midv ns j == s)).getLast? with
  | none => rw [hl] at h; cases h
  | some v =>
    rw [hl] at h
    cases h
    have := List.mem_of_getLast?_eq_some hl
    exact List.mem_range.mp (List.mem_of_mem_filter this)

theorem mpnv_set_parentId (ns : List MNode) (i j : Nat) (x : MNode) (v : Nat)
    (hx : ns.get? i = some x) :
    mpnv (ns.set i { x with parent_id := some v }) j = mpnv ns j := by
  unfold mpnv
  by_cases hij : i = j
  · subst hij
    have hlen : i < ns.length := by
      by_contra hc
      rw [List.get?_eq_none.mpr (by omega)] at hx
      cases hx
    rw [List.get?_set_eq_of_lt _ hlen, hx]
    rfl
  · rw [List.get?_set_ne _ _ hij]

/-- If some pending index carries an unresolvable parent reference, the
child-resolution loop of `NestedSet::new` fails with
`ParentNodeNotFoundError` carrying an unresolvable identity. -/
theorem mChildLoop_err (lk : String → Option Nat) (L : Nat)
    (hlk : ∀ s j, lk s = some j → j < L) :
    ∀ idxs ns ch, ch.length = L →
    (∀ i, i ∈ idxs → i < ns.length) →
    (∃ i, i ∈ idxs ∧ ∃ p, mpnv ns i = some p ∧ lk p = none) →
    ∃ q, mChildLoop lk idxs ns ch = .error (.parentNotFound q) ∧
      lk q = none := by
  intro idxs
  induction idxs with
  | nil =>
    intro ns ch _ _ hex
    obtain ⟨i, hi, _⟩ := hex
    cases hi
  | cons i rest ih =>
    intro ns ch hch hin hex
    have hi : i < ns.length := hin i (List.mem_cons_self _ _)
    cases hx : ns.get? i with
    | none => exact absurd (List.get?_eq_none.mp hx) (by omega)
    | some x =>
      show ∃ q, mChildLoop lk (i :: rest) ns ch = _ ∧ _
      cases hp : x.parent_node with
      | none =>
        have hstep : mChildLoop lk (i :: rest) ns ch =
            mChildLoop lk rest ns ch := by
          simp only [mChildLoop, hx, hp]
        rw [hstep]
        refine ih ns ch hch (fun j hj => hin j (List.mem_cons_of_mem _ hj)) ?_
        obtain ⟨w, hw, p, hwp, hwl⟩ := hex
        rcases List.mem_cons.mp hw with rfl | hw'
        · rw [mpnv, hx] at hwp
          simp only [Option.some_bind, hp] at hwp
          exact Option.noConfusion hwp
        · exact ⟨w, hw', p, hwp, hwl⟩
      | some p =>
        cases hl : lk p with
        | none =>
          refine ⟨p, ?_, hl⟩
          simp only [mChildLoop, hx, hp, hl]
        | some parent =>
          have hpar : parent < L := hlk p parent hl
          have hex' : ∃ w, w ∈ rest ∧ ∃ pw,
              mpnv (ns.set i { x with parent_id := some (parent + 1) }) w =
                some pw ∧ lk pw = none := by
            obtain ⟨w, hw, pw, hwp, hwl⟩ := hex
            rcases List.mem_cons.mp hw with rfl | hw'
            · rw [mpnv, hx] at hwp
              simp only [Option.some_bind, hp] at hwp
              cases hwp
              rw [hl] at hwl
              cases hwl
            · exact ⟨w, hw', pw, by rwa [mpnv_set_parentId ns i w x (parent + 1) hx], hwl⟩
          have hin' : ∀ j, j ∈ rest →
              j < (ns.set i { x with parent_id := some (parent + 1) }).length := by
            intro j hj
            have := hin j (List.mem_cons_of_mem _ hj)
            simpa using this
          cases hcopt : ch.get? parent with
          | none => exact absurd (List.get?_eq_none.mp hcopt) (by omega)
          | some copt =>
            cases copt with
            | none =>
              have hstep : mChildLoop lk (i :: rest) ns ch =
                  mChildLoop lk rest
                    (ns.set i { x with parent_id := some (parent + 1) })
                    (ch.set parent (some [i])) := by
                simp only [mChildLoop, hx, hp, hl, hcopt]
              rw [hstep]
              exact ih _ _ (by simp [hch]) hin' hex'
            | some l =>
              have hstep : mChildLoop lk (i :: rest) ns ch =
                  mChildLoop lk rest
                    (ns.set i { x with parent_id := some (parent + 1) })
                    (ch.set parent (some (l ++ [i]))) := by
                simp only [mChildLoop, hx, hp, hl, hcopt]
              rw [hstep]
              exact ih _ _ (by simp [hch]) hin' hex'

/-- C7 (amended): the `main.rs` variant validates all references up
front — whenever some node's parent identity resolves to no non-leaf
node, `NestedSet::new` fails with `ParentNodeNotFoundError` carrying an
unresolvable identity (so `rebuild` never runs); the `data.rs`
`Graph::build_index` raises this error only when the offending node is
reachable from the root, and otherwise succeeds leaving it unindexed
(see the counterexample). -/
theorem c7_amended_nsnew_rejects (nodes : List MNode) (i : Nat) (p : String)
    (hi : i < nodes.length) (hp : mpnv nodes i = some p)
    (hnr : ∀ j, j < nodes.length →
      ¬(mleafv nodes j = false ∧ midv nodes j = p)) :
    ∃ q, nsNew nodes = .error (.parentNotFound q) ∧
      ∀ j, j < nodes.length →
        ¬(mleafv nodes j = false ∧ midv nodes j = q) := by
  have hlk0 : mLookup (mSetPids nodes) p = none := by
    rw [mSetPids_mLookup]
    rw [mLookup_eq_none_iff]
    exact hnr
  obtain ⟨q, hq, hqn⟩ := mChildLoop_err (mLookup (mSetPids nodes))
    (mSetPids nodes).length
    (fun s j h => by
      rw [mSetPids_mLookup] at h
      have := mLookup_lt h
      rwa [mSetPids_length])
    (List.range (mSetPids nodes).length) (mSetPids nodes)
    (List.replicate (mSetPids nodes).length none)
    (by rw [List.length_replicate])
    (fun j hj => List.mem_range.mp hj)
    ⟨i, List.mem_range.mpr (by rwa [mSetPids_length]), p,
      by rwa [mSetPids_mpnv], hlk0⟩
  refine ⟨q, ?_, ?_⟩
  · show (match mChildLoop (mLookup (mSetPids nodes))
        (List.range (mSetPids nodes).length) (mSetPids nodes)
        (List.replicate (mSetPids nodes).length none) with
      | Except.error e => Except.error e
      | Except.ok (ns', ch) => Except.ok (ns', mRoot (mSetPids nodes), ch)) =
      Except.error (Err.parentNotFound q)
    rw [hq]
  · rw [mSetPids_mLookup, mLookup_eq_none_iff] at hqn
    exact hqn

/-- Two-node `main.rs` input with a dangling parent reference. -/
def exDanglingM : List MNode :=
  [ { pid := none, node := "1", node_label := "1", parent_node := none,
      parent_id := none, leaf := false, lft := none, rgt := none,
      count := none },
    { pid := none, node := "2", node_label := "2",
      parent_node := some "Z", parent_id := none, leaf := false,
      lft := none, rgt := none, count := none } ]

/-- Witness for the amended C7 on a concrete input. -/
theorem c7_amended_witness :
    (1 < exDanglingM.length ∧ mpnv exDanglingM 1 = some "Z" ∧
      (∀ j, j < exDanglingM.length →
        ¬(mleafv exDanglingM j = false ∧ midv exDanglingM j = "Z"))) ∧
    ∃ q, nsNew exDanglingM = .error (.parentNotFound q) ∧
      ∀ j, j < exDanglingM.length →
        ¬(mleafv exDanglingM j = false ∧ midv exDanglingM j = q) :=
  ⟨⟨by decide, by decide, by decide⟩,
    c7_amended_nsnew_rejects exDanglingM 1 "Z" (by decide) (by decide)
      (by decide)⟩

/-! ### Claim C10: agreement of the two indexer variants -/

/-- Value view of `lft` for the `main.rs` node type. -/
def mlftv (ns : List MNode) (i : Nat) : Option Nat :=
  (ns.get? i).bind (fun nd => nd.lft)

/-- Value view of `rgt` for the `main.rs` node type. -/
def mrgtv (ns : List MNode) (i : Nat) : Option Nat :=
  (ns.get? i).bind (fun nd => nd.rgt)

/-- Value view of `count` for the `main.rs` node type. -/
def mcountv (ns : List MNode) (i : Nat) : Option Nat :=
  (ns.get? i).bind (fun nd => nd.count)

/-- Value view of `pid` for the `main.rs` node type. -/
def mpidv (ns : List MNode) (i : Nat) : Option Nat :=
  (ns.get? i).bind (fun nd => nd.pid)

/-- Value view of `parent_id` for the `main.rs` node type. -/
def mparentIdv (ns : List MNode) (i : Nat) : Option Nat :=
  (ns.get? i).bind (fun nd => nd.parent_id)

/-- The same record viewed through the `main.rs` node type (its `label`
is called `node_label` there and it has no `origin` field). -/
def toM (nd : Node) : MNode :=
  { pid := nd.pid, node := nd.node, node_label := nd.label,
    parent_node := nd.parent_node, parent_id := nd.parent_id,
    leaf := nd.leaf, lft := nd.lft, rgt := nd.rgt, count := nd.count }

/-- Checks that an indexed `data.rs` collection and an indexed `main.rs`
collection assign identical `pid`, `parent_id`, `lft`, `rgt` and `count`
values node for node. -/
def agreeAll (a : List Node) (b : List MNode) : Bool :=
  a.length == b.length &&
    (List.range a.length).all (fun j =>
      pidv a j == mpidv b j && parentIdv a j == mparentIdv b j &&
      lftv a j == mlftv b j && rgtv a j == mrgtv b j &&
      countv a j == mcountv b j)

/-- Runs both pipelines on the same input and checks agreement. -/
def pipelinesAgree (ns : List Node) (fuel : Nat) : Bool :=
  match graphNew ns with
  | .error _ => false
  | .ok g =>
    match buildIndex fuel g, nsNew (ns.map toM) with
    | .ok d, .ok st =>
      match rebuild fuel st with
      | .ok m => agreeAll d m
      | .error _ => false
    | _, _ => false

/-- Tree-shaped input (one non-leaf root, resolving parents, acyclic) in
which the non-leaf identity `"A"` occurs on two nodes. -/
def exC10 : List Node :=
  [ mkN "R" none false,
    mkN "A" (some "R") false,
    mkN "A" (some "R") false,
    mkN "C" (some "A") false ]

/-- `Graph::build_index` output on `exC10`: the identity-keyed child map
visits `"C"` below both nodes named `"A"`. -/
def exC10data : List Node :=
  [ { mkN "R" none false with
      pid := some 1, lft := some 1, rgt := some 10, count := some 2 },
    { mkN "A" (some "R") false with
      pid := some 2, parent_id := some 1, lft := some 2, rgt := some 5,
      count := some 1 },
    { mkN "A" (some "R") false with
      pid := some 3, parent_id := some 1, lft := some 6, rgt := some 9,
      count := some 1 },
    { mkN "C" (some "A") false with
      pid := some 4, parent_id := some 3, lft := some 7, rgt := some 8,
      count := some 0 } ]

/-- `NestedSet::rebuild` output on `exC10`: the position-keyed child
vectors attach `"C"` only below the last node named `"A"`. -/
def exC10main : List MNode :=
  [ { toM (mkN "R" none false) with
      pid := some 1, lft := some 1, rgt := some 8, count := some 2 },
    { toM (mkN "A" (some "R") false) with
      pid := some 2, parent_id := some 1, lft := some 2, rgt := some 3,
      count := some 0 },
    { toM (mkN "A" (some "R") false) with
      pid := some 3, parent_id := some 1, lft := some 4, rgt := some 7,
      count := some 1 },
    { toM (mkN "C" (some "A") false) with
      pid := some 4, parent_id := some 3, lft := some 5, rgt := some 6,
      count := some 0 } ]

/-- C10 (counterexample): `exC10` has exactly one root held by a
non-leaf node, every parent identity resolves to a non-leaf node, and it
is acyclic, yet the two indexer variants disagree: `Graph::build_index`
gives the node `"C"` the interval `[7, 8]` and the first `"A"` the
interval `[2, 5]` with one child, while `NestedSet::rebuild` gives
`"C"` the interval `[5, 6]` and the first `"A"` the childless interval
`[2, 3]`. -/
theorem c10_counterexample :
    (rootless exC10 = 1 ∧ leafv exC10 0 = false ∧ Resolves exC10 ∧
      Acyclic exC10) ∧
    graphNew exC10 = .ok (exC10, 0) ∧
    buildIndex 20 (exC10, 0) = .ok exC10data ∧
    (match nsNew (exC10.map toM) with
      | .ok st => rebuild 20 st
      | .error e => .error e) = .ok exC10main ∧
    lftv exC10data 3 = some 7 ∧ mlftv exC10main 3 = some 5 ∧
    rgtv exC10data 1 = some 5 ∧ mrgtv exC10main 1 = some 3 ∧
    countv exC10data 1 = some 1 ∧ mcountv exC10main 1 = some 0 :=
  ⟨⟨by decide, by decide, by decide, by decide⟩, by rfl, by rfl, by rfl,
    by decide, by decide, by decide, by decide, by decide, by decide⟩

/-- The canonical clothing-catalog tree of the `main.rs` test (identities
shortened to single words; structure and child order unchanged). -/
def clothingD : List Node :=
  [ mkN "Clothing" none false,
    mkN "Mens" (some "Clothing") false,
    mkN "Womens" (some "Clothing") false,
    mkN "Suits" (some "Mens") false,
    mkN "Slacks" (some "Suits") false,
    mkN "Jackets" (some "Suits") false,
    mkN "Dresses" (some "Womens") false,
    mkN "Skirts" (some "Womens") false,
    mkN "Blouses" (some "Womens") false,
    mkN "Gowns" (some "Dresses") false,
    mkN "Sun" (some "Dresses") false ]

/-- C10 (amended, proved on the canonical input): when non-leaf
identities are additionally unique, the two variants agree; on the
canonical clothing-catalog tree both pipelines assign identical `pid`,
`parent_id`, `lft`, `rgt` and `count` values node for node. -/
theorem c10_amended_agree_on_clothing :
    (NLUniq clothingD ∧ LeafNotRef clothingD ∧ Resolves clothingD ∧
      Acyclic clothingD ∧ rootless clothingD = 1) ∧
    pipelinesAgree clothingD 40 = true :=
  ⟨⟨by decide, by decide, by decide, by decide, by decide⟩, by decide⟩

/-! ### Claims C1 and C2: the `fill` numbering invariants

The lemma stack works over a fixed reference list `ns0` (the pid-assigned
input of `build_index`): `visitL` mirrors the traversal order of `fillL`,
`skel` captures the fields `fill` never writes, and the parent-chain
combinators (`pIdx`, `iterP`) tie the traversal to the node-level parent
relation. -/

/-- Preorder visit list of `fillL` (same fuel discipline, same child
lookups, computed over the reference list `ns0`). -/
def visitL (ns0 : List Node) : Nat → List Nat → List Nat
  | _, [] => []
  | 0, _ :: _ => []
  | fuel + 1, c :: cs =>
    c :: (visitL ns0 fuel (childIdx ns0 (idv ns0 c)) ++ visitL ns0 fuel cs)

/-- The fields of a node that `fill` never writes. -/
def skel (nd : Node) :
    String × Option String × Bool × Option String × String × Option Nat :=
  (nd.node, nd.parent_node, nd.leaf, nd.origin, nd.label, nd.pid)

/-- Two lists agree on every node's untouched fields. -/
def SameSkel (a b : List Node) : Prop :=
  a.length = b.length ∧ ∀ j, (a.get? j).map skel = (b.get? j).map skel

theorem SameSkel.refl (a : List Node) : SameSkel a a := ⟨rfl, fun _ => rfl⟩

theorem SameSkel.trans {a b c : List Node} (h1 : SameSkel a b)
    (h2 : SameSkel b c) : SameSkel a c :=
  ⟨h1.1.trans h2.1, fun j => (h1.2 j).trans (h2.2 j)⟩

theorem SameSkel.idv_eq {a b : List Node} (h : SameSkel a b) (j : Nat) :
    idv a j = idv b j := by
  have := h.2 j
  unfold idv
  cases ha : a.get? j <;> cases hb : b.get? j <;>
    rw [ha, hb] at this <;> simp_all [skel]

theorem SameSkel.pnv_eq {a b : List Node} (h : SameSkel a b) (j : Nat) :
    pnv a j = pnv b j := by
  have := h.2 j
  unfold pnv
  cases ha : a.get? j <;> cases hb : b.get? j <;>
    rw [ha, hb] at this <;> simp_all [skel]

theorem SameSkel.leafv_eq {a b : List Node} (h : SameSkel a b) (j : Nat) :
    leafv a j = leafv b j := by
  have := h.2 j
  unfold leafv
  cases ha : a.get? j <;> cases hb : b.get? j <;>
    rw [ha, hb] at this <;> simp_all [skel]

theorem SameSkel.pidv_eq {a b : List Node} (h : SameSkel a b) (j : Nat) :
    pidv a j = pidv b j := by
  have := h.2 j
  unfold pidv
  cases ha : a.get? j <;> cases hb : b.get? j <;>
    rw [ha, hb] at this <;> simp_all [skel]

theorem SameSkel.set {ns : List Node} {c : Nat} {nd nd' : Node}
    (hget : ns.get? c = some nd) (hsk : skel nd' = skel nd) :
    SameSkel ns (ns.set c nd') := by
  refine ⟨(List.length_set ns c nd').symm, fun j => ?_⟩
  by_cases hij : c = j
  · subst hij
    have hc : c < ns.length := by
      by_contra hcon
      rw [List.get?_eq_none.mpr (by omega)] at hget
      cases hget
    rw [List.get?_set_eq_of_lt _ hc, hget]
    simp [hsk]
  · rw [List.get?_set_ne _ _ hij]

/-! #### Structure of the child map and the parent relation -/

theorem mem_childIdx {ns0 : List Node} {s : String} {j : Nat} :
    j ∈ childIdx ns0 s ↔ j < ns0.length ∧ pnv ns0 j = some s := by
  unfold childIdx
  rw [List.mem_filter, List.mem_range]
  constructor
  · rintro ⟨h1, h2⟩
    exact ⟨h1, by simpa using h2⟩
  · rintro ⟨h1, h2⟩
    exact ⟨h1, by simpa using h2⟩

theorem childIdx_nodup (ns0 : List Node) (s : String) :
    (childIdx ns0 s).Nodup :=
  (List.nodup_range _).filter _

theorem firstNL_spec {ns0 : List Node} {s : String} {u : Nat}
    (h : firstNL ns0 s = some u) :
    u < ns0.length ∧ leafv ns0 u = false ∧ idv ns0 u = s := by
  unfold firstNL at h
  have hmem : u ∈ (List.range ns0.length).filter
      (fun j => !leafv ns0 j && idv ns0 j == s) :=
    List.mem_of_mem_head? (by rw [h]; rfl)
  have h1 := List.mem_range.mp (List.mem_of_mem_filter hmem)
  have h2 := List.of_mem_filter hmem
  rw [Bool.and_eq_true] at h2
  exact ⟨h1, by simpa using h2.1, by simpa using h2.2⟩

theorem firstNL_eq {ns0 : List Node} (hu : NLUniq ns0) {s : String} {u : Nat}
    (h1 : u < ns0.length) (h2 : leafv ns0 u = false) (h3 : idv ns0 u = s) :
    firstNL ns0 s = some u := by
  cases hf : firstNL ns0 s with
  | none =>
    unfold firstNL at hf
    rw [List.head?_eq_none_iff] at hf
    have : u ∈ (List.range ns0.length).filter
        (fun j => !leafv ns0 j && idv ns0 j == s) := by
      rw [List.mem_filter, List.mem_range]
      exact ⟨h1, by simp [h2, h3]⟩
    rw [hf] at this
    cases this
  | some v =>
    obtain ⟨hv1, hv2, hv3⟩ := firstNL_spec hf
    rw [hu v hv1 u h1 hv2 h2 (hv3.trans h3.symm)]

theorem pIdx_child {ns0 : List Node} (hu : NLUniq ns0) (hl : LeafNotRef ns0)
    {c x : Nat} (hc : c < ns0.length)
    (hx : x ∈ childIdx ns0 (idv ns0 c)) : pIdx ns0 x = some c := by
  obtain ⟨hx1, hx2⟩ := mem_childIdx.mp hx
  have hcl : leafv ns0 c = false := by
    by_contra hcon
    rw [Bool.not_eq_false] at hcon
    exact hl x hx1 c hc hcon hx2
  unfold pIdx
  rw [hx2]
  exact firstNL_eq hu hc hcl rfl

theorem pIdx_lt {ns0 : List Node} {j u : Nat} (h : pIdx ns0 j = some u) :
    u < ns0.length := by
  unfold pIdx at h
  cases hp : pnv ns0 j with
  | none => rw [hp] at h; cases h
  | some s =>
    rw [hp] at h
    exact (firstNL_spec h).1

theorem pIdx_dom {ns0 : List Node} {j u : Nat} (h : pIdx ns0 j = some u) :
    j < ns0.length ∧ j ∈ childIdx ns0 (idv ns0 u) := by
  unfold pIdx at h
  cases hp : pnv ns0 j with
  | none => rw [hp] at h; cases h
  | some s =>
    rw [hp] at h
    obtain ⟨h1, h2, h3⟩ := firstNL_spec h
    have hj : j < ns0.length := by
      unfold pnv at hp
      cases hg : ns0.get? j with
      | none => rw [hg] at hp; cases hp
      | some nd =>
        by_contra hcon
        rw [List.get?_eq_none.mpr (by omega)] at hg
        cases hg
    exact ⟨hj, mem_childIdx.mpr ⟨hj, by rw [hp, h3]⟩⟩

theorem iterP_add (ns0 : List Node) (a b j : Nat) :
    iterP ns0 (a + b) j = (iterP ns0 a j).bind (iterP ns0 b) := by
  induction a generalizing j with
  | zero => simp [iterP]
  | succ a ih =>
    rw [show a + 1 + b = (a + b) + 1 from by omega]
    show (pIdx ns0 j).bind (iterP ns0 (a + b)) =
      ((pIdx ns0 j).bind (iterP ns0 a)).bind (iterP ns0 b)
    cases hp : pIdx ns0 j with
    | none => rfl
    | some u =>
      simp only [Option.some_bind]
      exact ih u

theorem iterP_one (ns0 : List Node) (j : Nat) : iterP ns0 1 j = pIdx ns0 j := by
  show (pIdx ns0 j).bind (iterP ns0 0) = _
  cases pIdx ns0 j <;> rfl

theorem iterP_some_lt {ns0 : List Node} {k j v : Nat} (hk : 1 ≤ k)
    (h : iterP ns0 k j = some v) : v < ns0.length := by
  induction k generalizing j with
  | zero => omega
  | succ k ih =>
    rw [show k + 1 = 1 + k from by omega, iterP_add, iterP_one] at h
    cases hp : pIdx ns0 j with
    | none => rw [hp] at h; cases h
    | some u =>
      rw [hp] at h
      simp only [Option.some_bind] at h
      rcases Nat.eq_zero_or_pos k with rfl | hpos
      · cases h
        exact pIdx_lt hp
      · exact ih hpos h

theorem iterP_prefix {ns0 : List Node} {k t j v : Nat} (ht : t ≤ k)
    (h : iterP ns0 k j = some v) : ∃ z, iterP ns0 t j = some z := by
  rw [show k = t + (k - t) from by omega, iterP_add] at h
  cases hz : iterP ns0 t j with
  | none => rw [hz] at h; cases h
  | some z => exact ⟨z, rfl⟩

theorem chain_linear {ns0 : List Node} {k1 k2 j a b : Nat}
    (h1 : iterP ns0 k1 j = some a) (h2 : iterP ns0 k2 j = some b)
    (hle : k1 ≤ k2) : iterP ns0 (k2 - k1) a = some b := by
  rw [show k2 = k1 + (k2 - k1) from by omega, iterP_add, h1,
    Option.some_bind] at h2
  exact h2

theorem chain_pigeon {ns0 : List Node} {x : Nat} (hx : x < ns0.length)
    (hall : ∀ t, t ≤ ns0.length → ∃ v, iterP ns0 t x = some v) :
    ∃ a b, a < b ∧ b ≤ ns0.length ∧
      ∃ v, iterP ns0 a x = some v ∧ iterP ns0 b x = some v := by
  have hmaps : ∀ t ∈ Finset.range (ns0.length + 1),
      (iterP ns0 t x).getD 0 ∈ Finset.range ns0.length := by
    intro t ht
    have ht' : t ≤ ns0.length := Nat.lt_succ_iff.mp (Finset.mem_range.mp ht)
    obtain ⟨v, hv⟩ := hall t ht'
    rw [hv]
    rcases Nat.eq_zero_or_pos t with rfl | hpos
    · cases hv
      exact Finset.mem_range.mpr hx
    · exact Finset.mem_range.mpr (iterP_some_lt hpos hv)
  obtain ⟨a, ha, b, hb, hab, heq⟩ :=
    Finset.exists_ne_map_eq_of_card_lt_of_maps_to
      (by simp : (Finset.range ns0.length).card <
        (Finset.range (ns0.length + 1)).card) hmaps
  have ha' := Nat.lt_succ_iff.mp (Finset.mem_range.mp ha)
  have hb' := Nat.lt_succ_iff.mp (Finset.mem_range.mp hb)
  obtain ⟨va, hva⟩ := hall a ha'
  obtain ⟨vb, hvb⟩ := hall b hb'
  have hveq : va = vb := by
    rw [hva, hvb] at heq
    simpa using heq
  subst hveq
  rcases Nat.lt_or_ge a b with h | h
  · exact ⟨a, b, h, hb', va, hva, hvb⟩
  · exact ⟨b, a, by omega, ha', va, hvb, hva⟩

/-- Under the (bounded) acyclicity hypothesis, no cycle of any length
exists in the parent-resolution relation. -/
theorem acyclic_full {ns0 : List Node} (hac : Acyclic ns0) :
    ∀ x, x < ns0.length → ∀ d, 1 ≤ d → iterP ns0 d x ≠ some x := by
  intro x hx d hd hcon
  by_cases hdle : d ≤ ns0.length
  · exact hac x hx d (by omega) hd hcon
  · have hall : ∀ t, t ≤ ns0.length → ∃ v, iterP ns0 t x = some v :=
      fun t ht => iterP_prefix (by omega) hcon
    obtain ⟨a, b, hab, hble, v, hva, hvb⟩ := chain_pigeon hx hall
    have hcyc : iterP ns0 (b - a) v = some v := chain_linear hva hvb (by omega)
    have hvlt : v < ns0.length := by
      rcases Nat.eq_zero_or_pos a with rfl | hpos
      · cases hva
        exact hx
      · exact iterP_some_lt hpos hva
    exact hac v hvlt (b - a) (by omega) (by omega) hcyc

/-- Under acyclicity every defined parent chain from a node has length at
most the list length. -/
theorem chain_le {ns0 : List Node} (hac : Acyclic ns0) {x y k : Nat}
    (hx : x < ns0.length) (h : iterP ns0 k x = some y) : k ≤ ns0.length := by
  by_contra hcon
  have hall : ∀ t, t ≤ ns0.length → ∃ v, iterP ns0 t x = some v :=
    fun t ht => iterP_prefix (by omega) h
  obtain ⟨a, b, hab, hble, v, hva, hvb⟩ := chain_pigeon hx hall
  have hcyc : iterP ns0 (b - a) v = some v := chain_linear hva hvb (by omega)
  have hvlt : v < ns0.length := by
    rcases Nat.eq_zero_or_pos a with rfl | hpos
    · cases hva
      exact hx
    · exact iterP_some_lt hpos hva
  exact acyclic_full hac v hvlt (b - a) (by omega) hcyc

/-- No parent chain connects two distinct members of the list. -/
def NoChainPair (ns0 : List Node) (cs : List Nat) : Prop :=
  ∀ a, a ∈ cs → ∀ b, b ∈ cs → a ≠ b → ∀ d, iterP ns0 d a ≠ some b

theorem children_noChain {ns0 : List Node}
    (hac : Acyclic ns0) (s : String) :
    NoChainPair ns0 (childIdx ns0 s) := by
  intro a ha b hb hab d hcon
  cases d with
  | zero =>
    simp only [iterP, Option.some.injEq] at hcon
    exact hab hcon
  | succ d' =>
    obtain ⟨ha1, ha2⟩ := mem_childIdx.mp ha
    obtain ⟨hb1, hb2⟩ := mem_childIdx.mp hb
    cases hf : firstNL ns0 s with
    | none =>
      have hpa : pIdx ns0 a = none := by
        simp only [pIdx, ha2, hf]
      rw [show d' + 1 = 1 + d' from by omega, iterP_add, iterP_one, hpa] at hcon
      cases hcon
    | some u =>
      have hpa : pIdx ns0 a = some u := by
        simp only [pIdx, ha2, hf]
      have hpb : pIdx ns0 b = some u := by
        simp only [pIdx, hb2, hf]
      have hult : u < ns0.length := pIdx_lt hpa
      rw [show d' + 1 = 1 + d' from by omega, iterP_add, iterP_one, hpa,
        Option.some_bind] at hcon
      rcases Nat.eq_zero_or_pos d' with rfl | hpos
      · simp only [iterP, Option.some.injEq] at hcon
        subst hcon
        have h1 : iterP ns0 1 u = some u := by
          rw [iterP_one]
          exact hpb
        exact acyclic_full hac u hult 1 le_rfl h1
      · have h2 : iterP ns0 (d' + 1) u = some u := by
          rw [iterP_add, hcon, Option.some_bind, iterP_one]
          exact hpb
        exact acyclic_full hac u hult (d' + 1) (by omega) h2

/-! #### Inversion and preservation for `fillL` -/

theorem fillL_nil (cm : String → List Nat) (pm : String → Option Nat)
    (fuel : Nat) (ns : List Node) (n : Nat) :
    fillL cm pm fuel ns [] n = .ok (ns, n) := by
  cases fuel <;> rfl

theorem fillL_nil_inv {cm : String → List Nat} {pm : String → Option Nat}
    {fuel : Nat} {ns ns' : List Node} {n r : Nat}
    (h : fillL cm pm fuel ns [] n = .ok (ns', r)) : ns' = ns ∧ r = n := by
  rw [fillL_nil] at h
  cases h
  exact ⟨rfl, rfl⟩

theorem fillL_cons_inv {cm : String → List Nat} {pm : String → Option Nat}
    {fuel : Nat} {ns ns' : List Node} {c n r : Nat} {cs : List Nat}
    (h : fillL cm pm (fuel + 1) ns (c :: cs) n = .ok (ns', r)) :
    ∃ nd nd1 ns2 n2 nd2,
      ns.get? c = some nd ∧
      updLft nd (n + 1) pm = .ok nd1 ∧
      fillL cm pm fuel (ns.set c nd1) (cm nd.node) (n + 1) = .ok (ns2, n2) ∧
      ns2.get? c = some nd2 ∧
      fillL cm pm fuel
        (ns2.set c { nd2 with rgt := some (n2 + 1),
                              count := some (cm nd.node).length })
        cs (n2 + 1) = .ok (ns', r) := by
  simp only [fillL] at h
  cases hnd : ns.get? c with
  | none =>
    simp only [hnd] at h
    exact Except.noConfusion h
  | some nd =>
    simp only [hnd] at h
    cases h1 : updLft nd (n + 1) pm with
    | error e =>
      simp only [h1] at h
      exact Except.noConfusion h
    | ok nd1 =>
      simp only [h1] at h
      cases h2 : fillL cm pm fuel (ns.set c nd1) (cm nd.node) (n + 1) with
      | error e =>
        simp only [h2] at h
        exact Except.noConfusion h
      | ok p =>
        obtain ⟨ns2, n2⟩ := p
        simp only [h2] at h
        cases hnd2 : ns2.get? c with
        | none =>
          simp only [hnd2] at h
          exact Except.noConfusion h
        | some nd2 =>
          simp only [hnd2] at h
          exact ⟨nd, nd1, ns2, n2, nd2, rfl, h1, h2, hnd2, h⟩

theorem updLft_inv {nd : Node} {n : Nat} {pm : String → Option Nat}
    {nd1 : Node} (h : updLft nd n pm = .ok nd1) :
    skel nd1 = skel nd ∧ nd1.lft = some n ∧ nd1.rgt = nd.rgt ∧
      nd1.count = nd.count := by
  unfold updLft at h
  cases hp : nd.parent_node with
  | none =>
    simp only [hp] at h
    cases h
    refine ⟨?_, rfl, rfl, rfl⟩
    simp [skel, hp]
  | some p =>
    simp only [hp] at h
    cases hpm : pm p with
    | none =>
      simp only [hpm] at h
      exact Except.noConfusion h
    | some pi =>
      simp only [hpm] at h
      cases h
      refine ⟨?_, rfl, rfl, rfl⟩
      simp [skel, hp]

theorem fillL_skel {ns0 : List Node} : ∀ fuel (ns : List Node) cs n ns' r,
    fillL (childIdx ns0) (parentMap ns0) fuel ns cs n = .ok (ns', r) →
    SameSkel ns ns' := by
  intro fuel
  induction fuel with
  | zero =>
    intro ns cs n ns' r h
    cases cs with
    | nil =>
      obtain ⟨rfl, rfl⟩ := fillL_nil_inv h
      exact SameSkel.refl _
    | cons c cs => exact Except.noConfusion h
  | succ fuel ih =>
    intro ns cs n ns' r h
    cases cs with
    | nil =>
      obtain ⟨rfl, rfl⟩ := fillL_nil_inv h
      exact SameSkel.refl _
    | cons c cs =>
      obtain ⟨nd, nd1, ns2, n2, nd2, hnd, h1, h2, hnd2, h3⟩ := fillL_cons_inv h
      have hsk1 : SameSkel ns (ns.set c nd1) :=
        SameSkel.set hnd (updLft_inv h1).1
      have hsk2 := ih _ _ _ _ _ h2
      have hsk3 : SameSkel ns2 (ns2.set c
          { nd2 with rgt := some (n2 + 1),
                     count := some (childIdx ns0 nd.node).length }) :=
        SameSkel.set hnd2 rfl
      have hsk4 := ih _ _ _ _ _ h3
      exact hsk1.trans (hsk2.trans (hsk3.trans hsk4))

theorem visitL_nil (ns0 : List Node) (fuel : Nat) :
    visitL ns0 fuel [] = [] := by
  cases fuel <;> rfl

theorem visitL_succ_cons (ns0 : List Node) (fuel c : Nat) (cs : List Nat) :
    visitL ns0 (fuel + 1) (c :: cs) =
      c :: (visitL ns0 fuel (childIdx ns0 (idv ns0 c)) ++
        visitL ns0 fuel cs) := rfl

theorem node_eq_idv0 {ns0 ns : List Node} {c : Nat} {nd : Node}
    (hsk : SameSkel ns0 ns) (hnd : ns.get? c = some nd) :
    nd.node = idv ns0 c := by
  rw [hsk.idv_eq c, idv_eq_of_get? hnd]

theorem fillL_pending {ns0 : List Node} : ∀ fuel (ns : List Node) cs n ns' r,
    SameSkel ns0 ns →
    fillL (childIdx ns0) (parentMap ns0) fuel ns cs n = .ok (ns', r) →
    ∀ c, c ∈ cs → c < ns0.length ∧ c ∈ visitL ns0 fuel cs := by
  intro fuel
  induction fuel with
  | zero =>
    intro ns cs n ns' r hsk h c hc
    cases cs with
    | nil => cases hc
    | cons a cs => exact Except.noConfusion h
  | succ fuel ih =>
    intro ns cs n ns' r hsk h c hc
    cases cs with
    | nil => cases hc
    | cons a cs =>
      obtain ⟨nd, nd1, ns2, n2, nd2, hnd, h1, h2, hnd2, h3⟩ := fillL_cons_inv h
      have hsk1 : SameSkel ns0 (ns.set a nd1) :=
        hsk.trans (SameSkel.set hnd (updLft_inv h1).1)
      have hsk2 : SameSkel ns0 ns2 := hsk1.trans (fillL_skel _ _ _ _ _ _ h2)
      have hsk3 : SameSkel ns0 (ns2.set a
          { nd2 with rgt := some (n2 + 1),
                     count := some (childIdx ns0 nd.node).length }) :=
        hsk2.trans (SameSkel.set hnd2 rfl)
      rcases List.mem_cons.mp hc with rfl | hc'
      · refine ⟨?_, ?_⟩
        · have hlt : c < ns.length := by
            by_contra hcon
            rw [List.get?_eq_none.mpr (by omega)] at hnd
            cases hnd
          have := hsk.1
          omega
        · rw [visitL_succ_cons]
          exact List.mem_cons_self _ _
      · obtain ⟨hlt, hmem⟩ := ih _ _ _ _ _ hsk3 h3 c hc'
        refine ⟨hlt, ?_⟩
        rw [visitL_succ_cons]
        exact List.mem_cons_of_mem _ (List.mem_append_right _ hmem)

theorem fillL_frame {ns0 : List Node} : ∀ fuel (ns : List Node) cs n ns' r,
    SameSkel ns0 ns →
    fillL (childIdx ns0) (parentMap ns0) fuel ns cs n = .ok (ns', r) →
    ∀ j, j ∉ visitL ns0 fuel cs → ns'.get? j = ns.get? j := by
  intro fuel
  induction fuel with
  | zero =>
    intro ns cs n ns' r hsk h j hj
    cases cs with
    | nil =>
      obtain ⟨rfl, rfl⟩ := fillL_nil_inv h
      rfl
    | cons a cs => exact Except.noConfusion h
  | succ fuel ih =>
    intro ns cs n ns' r hsk h j hj
    cases cs with
    | nil =>
      obtain ⟨rfl, rfl⟩ := fillL_nil_inv h
      rfl
    | cons a cs =>
      obtain ⟨nd, nd1, ns2, n2, nd2, hnd, h1, h2, hnd2, h3⟩ := fillL_cons_inv h
      have hnode : nd.node = idv ns0 a := node_eq_idv0 hsk hnd
      rw [hnode] at h2 h3
      rw [visitL_succ_cons] at hj
      have hja : j ≠ a := fun hcon => hj (hcon ▸ List.mem_cons_self _ _)
      have hjc : j ∉ visitL ns0 fuel (childIdx ns0 (idv ns0 a)) := fun hcon =>
        hj (List.mem_cons_of_mem _ (List.mem_append_left _ hcon))
      have hjs : j ∉ visitL ns0 fuel cs := fun hcon =>
        hj (List.mem_cons_of_mem _ (List.mem_append_right _ hcon))
      have hsk1 : SameSkel ns0 (ns.set a nd1) :=
        hsk.trans (SameSkel.set hnd (updLft_inv h1).1)
      have hsk2 : SameSkel ns0 ns2 := hsk1.trans (fillL_skel _ _ _ _ _ _ h2)
      have hsk3 : SameSkel ns0 (ns2.set a
          { nd2 with rgt := some (n2 + 1),
                     count := some (childIdx ns0 (idv ns0 a)).length }) :=
        hsk2.trans (SameSkel.set hnd2 rfl)
      have step1 : ns'.get? j = (ns2.set a
          { nd2 with rgt := some (n2 + 1),
                     count := some (childIdx ns0 (idv ns0 a)).length }).get? j :=
        ih _ _ _ _ _ hsk3 h3 j hjs
      have step2 : (ns2.set a
          { nd2 with rgt := some (n2 + 1),
                     count := some (childIdx ns0 (idv ns0 a)).length }).get? j =
          ns2.get? j :=
        List.get?_set_ne _ _ (fun hc => hja hc.symm)
      have step3 : ns2.get? j = (ns.set a nd1).get? j :=
        ih _ _ _ _ _ hsk1 h2 j hjc
      have step4 : (ns.set a nd1).get? j = ns.get? j :=
        List.get?_set_ne _ _ (fun hc => hja hc.symm)
      rw [step1, step2, step3, step4]

theorem fillL_counter {ns0 : List Node} : ∀ fuel (ns : List Node) cs n ns' r,
    SameSkel ns0 ns →
    fillL (childIdx ns0) (parentMap ns0) fuel ns cs n = .ok (ns', r) →
    r = n + 2 * (visitL ns0 fuel cs).length := by
  intro fuel
  induction fuel with
  | zero =>
    intro ns cs n ns' r hsk h
    cases cs with
    | nil =>
      obtain ⟨rfl, rfl⟩ := fillL_nil_inv h
      simp [visitL_nil]
    | cons a cs => exact Except.noConfusion h
  | succ fuel ih =>
    intro ns cs n ns' r hsk h
    cases cs with
    | nil =>
      obtain ⟨rfl, rfl⟩ := fillL_nil_inv h
      simp [visitL_nil]
    | cons a cs =>
      obtain ⟨nd, nd1, ns2, n2, nd2, hnd, h1, h2, hnd2, h3⟩ := fillL_cons_inv h
      have hnode : nd.node = idv ns0 a := node_eq_idv0 hsk hnd
      rw [hnode] at h2 h3
      have hsk1 : SameSkel ns0 (ns.set a nd1) :=
        hsk.trans (SameSkel.set hnd (updLft_inv h1).1)
      have hsk2 : SameSkel ns0 ns2 := hsk1.trans (fillL_skel _ _ _ _ _ _ h2)
      have hsk3 : SameSkel ns0 (ns2.set a
          { nd2 with rgt := some (n2 + 1),
                     count := some (childIdx ns0 (idv ns0 a)).length }) :=
        hsk2.trans (SameSkel.set hnd2 rfl)
      have hc := ih _ _ _ _ _ hsk1 h2
      have hs := ih _ _ _ _ _ hsk3 h3
      rw [visitL_succ_cons]
      simp only [List.length_cons, List.length_append]
      omega

theorem chain_last {ns0 : List Node} {k j a : Nat} (hk : 1 ≤ k)
    (h : iterP ns0 k j = some a) :
    ∃ y, iterP ns0 (k - 1) j = some y ∧ pIdx ns0 y = some a := by
  rw [show k = (k - 1) + 1 from by omega, iterP_add] at h
  cases hy : iterP ns0 (k - 1) j with
  | none =>
    rw [hy] at h
    cases h
  | some y =>
    rw [hy, Option.some_bind, iterP_one] at h
    exact ⟨y, rfl, h⟩

theorem isDesc_iff {ns0 : List Node} {i x : Nat} :
    isDesc ns0 i x = true ↔
      ∃ k, 1 ≤ k ∧ k ≤ ns0.length ∧ iterP ns0 k x = some i := by
  unfold isDesc
  rw [List.any_eq_true]
  constructor
  · rintro ⟨k, hk, hcond⟩
    rw [Bool.and_eq_true] at hcond
    exact ⟨k, by simpa using hcond.1,
      Nat.lt_succ_iff.mp (List.mem_range.mp hk), by simpa using hcond.2⟩
  · rintro ⟨k, h1, h2, h3⟩
    exact ⟨k, List.mem_range.mpr (by omega), by simp [h1, h3]⟩

theorem fillL_visit_chain {ns0 : List Node} (hu : NLUniq ns0)
    (hl : LeafNotRef ns0) :
    ∀ fuel (ns : List Node) cs n ns' r,
    SameSkel ns0 ns →
    fillL (childIdx ns0) (parentMap ns0) fuel ns cs n = .ok (ns', r) →
    ∀ j, j ∈ visitL ns0 fuel cs → ∃ c, c ∈ cs ∧ ∃ k, iterP ns0 k j = some c := by
  intro fuel
  induction fuel with
  | zero =>
    intro ns cs n ns' r hsk h j hj
    cases cs with
    | nil => rw [visitL_nil] at hj; cases hj
    | cons a cs => exact Except.noConfusion h
  | succ fuel ih =>
    intro ns cs n ns' r hsk h j hj
    cases cs with
    | nil => rw [visitL_nil] at hj; cases hj
    | cons a cs =>
      obtain ⟨nd, nd1, ns2, n2, nd2, hnd, h1, h2, hnd2, h3⟩ := fillL_cons_inv h
      have hnode : nd.node = idv ns0 a := node_eq_idv0 hsk hnd
      rw [hnode] at h2 h3
      have hsk1 : SameSkel ns0 (ns.set a nd1) :=
        hsk.trans (SameSkel.set hnd (updLft_inv h1).1)
      have hsk2 : SameSkel ns0 ns2 := hsk1.trans (fillL_skel _ _ _ _ _ _ h2)
      have hsk3 : SameSkel ns0 (ns2.set a
          { nd2 with rgt := some (n2 + 1),
                     count := some (childIdx ns0 (idv ns0 a)).length }) :=
        hsk2.trans (SameSkel.set hnd2 rfl)
      have halen : a < ns0.length := by
        have hlt : a < ns.length := by
          by_contra hcon
          rw [List.get?_eq_none.mpr (by omega)] at hnd
          cases hnd
        have := hsk.1
        omega
      rw [visitL_succ_cons] at hj
      rcases List.mem_cons.mp hj with rfl | hj'
      · exact ⟨j, List.mem_cons_self _ _, 0, rfl⟩
      rcases List.mem_append.mp hj' with hjc | hjs
      · obtain ⟨x, hx, k, hk⟩ := ih _ _ _ _ _ hsk1 h2 j hjc
        have hpx : pIdx ns0 x = some a := pIdx_child hu hl halen hx
        refine ⟨a, List.mem_cons_self _ _, k + 1, ?_⟩
        rw [iterP_add, hk, Option.some_bind, iterP_one]
        exact hpx
      · obtain ⟨c, hc, k, hk⟩ := ih _ _ _ _ _ hsk3 h3 j hjs
        exact ⟨c, List.mem_cons_of_mem _ hc, k, hk⟩

theorem fillL_children_visited {ns0 : List Node} :
    ∀ fuel (ns : List Node) cs n ns' r,
    SameSkel ns0 ns →
    fillL (childIdx ns0) (parentMap ns0) fuel ns cs n = .ok (ns', r) →
    ∀ j, j ∈ visitL ns0 fuel cs →
    ∀ x, x ∈ childIdx ns0 (idv ns0 j) → x ∈ visitL ns0 fuel cs := by
  intro fuel
  induction fuel with
  | zero =>
    intro ns cs n ns' r hsk h j hj
    cases cs with
    | nil => rw [visitL_nil] at hj; cases hj
    | cons a cs => exact Except.noConfusion h
  | succ fuel ih =>
    intro ns cs n ns' r hsk h j hj x hx
    cases cs with
    | nil => rw [visitL_nil] at hj; cases hj
    | cons a cs =>
      obtain ⟨nd, nd1, ns2, n2, nd2, hnd, h1, h2, hnd2, h3⟩ := fillL_cons_inv h
      have hnode : nd.node = idv ns0 a := node_eq_idv0 hsk hnd
      rw [hnode] at h2 h3
      have hsk1 : SameSkel ns0 (ns.set a nd1) :=
        hsk.trans (SameSkel.set hnd (updLft_inv h1).1)
      have hsk2 : SameSkel ns0 ns2 := hsk1.trans (fillL_skel _ _ _ _ _ _ h2)
      have hsk3 : SameSkel ns0 (ns2.set a
          { nd2 with rgt := some (n2 + 1),
                     count := some (childIdx ns0 (idv ns0 a)).length }) :=
        hsk2.trans (SameSkel.set hnd2 rfl)
      rw [visitL_succ_cons] at hj ⊢
      rcases List.mem_cons.mp hj with rfl | hj'
      · exact List.mem_cons_of_mem _ (List.mem_append_left _
          (fillL_pending _ _ _ _ _ _ hsk1 h2 x hx).2)
      rcases List.mem_append.mp hj' with hjc | hjs
      · exact List.mem_cons_of_mem _ (List.mem_append_left _
          (ih _ _ _ _ _ hsk1 h2 j hjc x hx))
      · exact List.mem_cons_of_mem _ (List.mem_append_right _
          (ih _ _ _ _ _ hsk3 h3 j hjs x hx))

theorem fillL_chain_visited {ns0 : List Node}
    {fuel n r : Nat} {ns ns' : List Node} {cs : List Nat}
    (hsk : SameSkel ns0 ns)
    (h : fillL (childIdx ns0) (parentMap ns0) fuel ns cs n = .ok (ns', r)) :
    ∀ k x j, j ∈ visitL ns0 fuel cs → iterP ns0 k x = some j →
      x ∈ visitL ns0 fuel cs := by
  intro k
  induction k with
  | zero =>
    intro x j hj hch
    simp only [iterP, Option.some.injEq] at hch
    rwa [hch]
  | succ k ih =>
    intro x j hj hch
    rw [show k + 1 = 1 + k from by omega, iterP_add, iterP_one] at hch
    cases hp : pIdx ns0 x with
    | none =>
      rw [hp] at hch
      cases hch
    | some u =>
      rw [hp, Option.some_bind] at hch
      have hu : u ∈ visitL ns0 fuel cs := ih u j hj hch
      exact fillL_children_visited _ _ _ _ _ _ hsk h u hu x (pIdx_dom hp).2

theorem noChainPair_tail {ns0 : List Node} {a : Nat} {cs : List Nat}
    (h : NoChainPair ns0 (a :: cs)) : NoChainPair ns0 cs :=
  fun x hx y hy => h x (List.mem_cons_of_mem _ hx) y (List.mem_cons_of_mem _ hy)

theorem visit_chain_head {ns0 : List Node} (hu : NLUniq ns0)
    (hl : LeafNotRef ns0) {fuel a n n2 : Nat} {ns1 ns2 : List Node}
    (halen : a < ns0.length) (hsk1 : SameSkel ns0 ns1)
    (h2 : fillL (childIdx ns0) (parentMap ns0) fuel ns1
      (childIdx ns0 (idv ns0 a)) n = .ok (ns2, n2)) :
    ∀ j, j ∈ visitL ns0 fuel (childIdx ns0 (idv ns0 a)) →
      ∃ k, 1 ≤ k ∧ iterP ns0 k j = some a := by
  intro j hj
  obtain ⟨x, hx, k, hk⟩ := fillL_visit_chain hu hl _ _ _ _ _ _ hsk1 h2 j hj
  refine ⟨k + 1, by omega, ?_⟩
  rw [iterP_add, hk, Option.some_bind, iterP_one]
  exact pIdx_child hu hl halen hx

theorem head_disjoint {ns0 : List Node} (hu : NLUniq ns0) (hl : LeafNotRef ns0)
    (hac : Acyclic ns0) {fuel a n1 n3 n2 r : Nat} {cs : List Nat}
    {ns1 ns2 ns3 ns' : List Node}
    (halen : a < ns0.length)
    (hsk1 : SameSkel ns0 ns1)
    (h2 : fillL (childIdx ns0) (parentMap ns0) fuel ns1
      (childIdx ns0 (idv ns0 a)) n1 = .ok (ns2, n2))
    (hsk3 : SameSkel ns0 ns3)
    (h3 : fillL (childIdx ns0) (parentMap ns0) fuel ns3 cs n3 = .ok (ns', r))
    (hnmem : a ∉ cs) (hnc : NoChainPair ns0 (a :: cs)) :
    a ∉ visitL ns0 fuel (childIdx ns0 (idv ns0 a)) ∧
    a ∉ visitL ns0 fuel cs ∧
    ∀ j, j ∈ visitL ns0 fuel (childIdx ns0 (idv ns0 a)) →
      j ∉ visitL ns0 fuel cs := by
  refine ⟨?_, ?_, ?_⟩
  · intro hcon
    obtain ⟨k, hk1, hk⟩ := visit_chain_head hu hl halen hsk1 h2 a hcon
    exact acyclic_full hac a halen k hk1 hk
  · intro hcon
    obtain ⟨c, hc, k, hk⟩ := fillL_visit_chain hu hl _ _ _ _ _ _ hsk3 h3 a hcon
    rcases Nat.eq_zero_or_pos k with rfl | hkpos
    · simp only [iterP, Option.some.injEq] at hk
      exact hnmem (hk ▸ hc)
    · exact hnc a (List.mem_cons_self _ _) c (List.mem_cons_of_mem _ hc)
        (fun he => hnmem (he ▸ hc)) k hk
  · intro j hjc hjs
    obtain ⟨k1, hk1pos, hk1⟩ := visit_chain_head hu hl halen hsk1 h2 j hjc
    obtain ⟨c, hc, k2, hk2⟩ := fillL_visit_chain hu hl _ _ _ _ _ _ hsk3 h3 j hjs
    have hane : a ≠ c := fun he => hnmem (he ▸ hc)
    rcases Nat.lt_or_ge k2 k1 with hlt | hle
    · have hlin := chain_linear hk2 hk1 (by omega)
      exact hnc c (List.mem_cons_of_mem _ hc) a (List.mem_cons_self _ _)
        (fun he => hane he.symm) (k1 - k2) hlin
    · have hlin := chain_linear hk1 hk2 hle
      rcases Nat.eq_zero_or_pos (k2 - k1) with hz | hp
      · rw [hz] at hlin
        simp only [iterP, Option.some.injEq] at hlin
        exact hane hlin
      · exact hnc a (List.mem_cons_self _ _) c (List.mem_cons_of_mem _ hc)
          hane (k2 - k1) hlin

theorem fillL_visit_nodup {ns0 : List Node} (hu : NLUniq ns0)
    (hl : LeafNotRef ns0) (hac : Acyclic ns0) :
    ∀ fuel (ns : List Node) cs n ns' r,
    SameSkel ns0 ns →
    fillL (childIdx ns0) (parentMap ns0) fuel ns cs n = .ok (ns', r) →
    cs.Nodup → NoChainPair ns0 cs → (visitL ns0 fuel cs).Nodup := by
  intro fuel
  induction fuel with
  | zero =>
    intro ns cs n ns' r hsk h hnd hnc
    cases cs with
    | nil => rw [visitL_nil]; exact List.nodup_nil
    | cons a cs => exact Except.noConfusion h
  | succ fuel ih =>
    intro ns cs n ns' r hsk h hnd hnc
    cases cs with
    | nil => rw [visitL_nil]; exact List.nodup_nil
    | cons a cs =>
      obtain ⟨nd, nd1, ns2, n2, nd2, hnd', h1, h2, hnd2, h3⟩ := fillL_cons_inv h
      have hnode : nd.node = idv ns0 a := node_eq_idv0 hsk hnd'
      rw [hnode] at h2 h3
      have hsk1 : SameSkel ns0 (ns.set a nd1) :=
        hsk.trans (SameSkel.set hnd' (updLft_inv h1).1)
      have hsk2 : SameSkel ns0 ns2 := hsk1.trans (fillL_skel _ _ _ _ _ _ h2)
      have hsk3 : SameSkel ns0 (ns2.set a
          { nd2 with rgt := some (n2 + 1),
                     count := some (childIdx ns0 (idv ns0 a)).length }) :=
        hsk2.trans (SameSkel.set hnd2 rfl)
      have halen : a < ns0.length := by
        have hlt : a < ns.length := by
          by_contra hcon
          rw [List.get?_eq_none.mpr (by omega)] at hnd'
          cases hnd'
        have := hsk.1
        omega
      obtain ⟨hmem, hndtail⟩ := List.nodup_cons.mp hnd
      obtain ⟨hd1, hd2, hd3⟩ :=
        head_disjoint hu hl hac halen hsk1 h2 hsk3 h3 hmem hnc
      have hVc : (visitL ns0 fuel (childIdx ns0 (idv ns0 a))).Nodup :=
        ih _ _ _ _ _ hsk1 h2 (childIdx_nodup _ _) (children_noChain hac _)
      have hVcs : (visitL ns0 fuel cs).Nodup :=
        ih _ _ _ _ _ hsk3 h3 hndtail (noChainPair_tail hnc)
      rw [visitL_succ_cons]
      refine List.nodup_cons.mpr ⟨?_, hVc.append hVcs hd3⟩
      intro hcon
      rcases List.mem_append.mp hcon with hcon | hcon
      · exact hd1 hcon
      · exact hd2 hcon

theorem visit_size {ns0 : List Node} (hu : NLUniq ns0) (hl : LeafNotRef ns0)
    (hac : Acyclic ns0) {fuel a n n2 : Nat} {ns1 ns2 : List Node}
    (halen : a < ns0.length) (hsk1 : SameSkel ns0 ns1)
    (h2 : fillL (childIdx ns0) (parentMap ns0) fuel ns1
      (childIdx ns0 (idv ns0 a)) n = .ok (ns2, n2)) :
    (visitL ns0 fuel (childIdx ns0 (idv ns0 a))).length = descCount ns0 a := by
  have hVnd : (visitL ns0 fuel (childIdx ns0 (idv ns0 a))).Nodup :=
    fillL_visit_nodup hu hl hac _ _ _ _ _ _ hsk1 h2 (childIdx_nodup _ _)
      (children_noChain hac _)
  have hmem : ∀ j, j ∈ visitL ns0 fuel (childIdx ns0 (idv ns0 a)) ↔
      j ∈ (List.range ns0.length).filter (fun x => isDesc ns0 a x) := by
    intro j
    rw [List.mem_filter, List.mem_range]
    constructor
    · intro hj
      obtain ⟨k, hk1, hk⟩ := visit_chain_head hu hl halen hsk1 h2 j hj
      have hjlt : j < ns0.length := by
        have hk' := hk
        rw [show k = 1 + (k - 1) from by omega, iterP_add, iterP_one] at hk'
        cases hp : pIdx ns0 j with
        | none =>
          rw [hp] at hk'
          cases hk'
        | some u => exact (pIdx_dom hp).1
      have hkle : k ≤ ns0.length := chain_le hac hjlt hk
      exact ⟨hjlt, isDesc_iff.mpr ⟨k, hk1, hkle, hk⟩⟩
    · rintro ⟨hjlt, hdesc⟩
      obtain ⟨k, hk1, hkle, hk⟩ := isDesc_iff.mp hdesc
      obtain ⟨y, hy, hpy⟩ := chain_last hk1 hk
      have hyV : y ∈ visitL ns0 fuel (childIdx ns0 (idv ns0 a)) :=
        (fillL_pending _ _ _ _ _ _ hsk1 h2 y (pIdx_dom hpy).2).2
      exact fillL_chain_visited hsk1 h2 (k - 1) j y hyV hy
  have hperm := (List.perm_ext_iff_of_nodup hVnd
    ((List.nodup_range _).filter _)).mpr hmem
  rw [hperm.length_eq, descCount, List.countP_eq_length_filter]

/-- Default-valued view of `lft`. -/
def lftD (ns : List Node) (j : Nat) : Nat := (lftv ns j).getD 0

/-- Default-valued view of `rgt`. -/
def rgtD (ns : List Node) (j : Nat) : Nat := (rgtv ns j).getD 0

/-- The nested-set facts `fill` establishes at a visited node: interval
present, contained in `[lo, hi]`, properly ordered, of the exact width
determined by the descendant count, with `count` equal to the child-list
length, children strictly nested, and children pairwise ordered
left-to-right. -/
def GoodAt (ns0 ns' : List Node) (j lo hi : Nat) : Prop :=
  (lftv ns' j).isSome ∧ (rgtv ns' j).isSome ∧
  lo ≤ lftD ns' j ∧ lftD ns' j < rgtD ns' j ∧ rgtD ns' j ≤ hi ∧
  rgtD ns' j = lftD ns' j + 2 * descCount ns0 j + 1 ∧
  countv ns' j = some (childIdx ns0 (idv ns0 j)).length ∧
  (∀ x, x ∈ childIdx ns0 (idv ns0 j) →
    lftD ns' j < lftD ns' x ∧ rgtD ns' x < rgtD ns' j) ∧
  (childIdx ns0 (idv ns0 j)).Pairwise (fun x y => rgtD ns' x < lftD ns' y)

theorem GoodAt_mono {ns0 ns' : List Node} {j lo hi lo' hi' : Nat}
    (h : GoodAt ns0 ns' j lo hi) (hlo : lo' ≤ lo) (hhi : hi ≤ hi') :
    GoodAt ns0 ns' j lo' hi' := by
  obtain ⟨g1, g2, g3, g4, g5, g6, g7, g8, g9⟩ := h
  exact ⟨g1, g2, by omega, g4, by omega, g6, g7, g8, g9⟩

theorem GoodAt_transfer {ns0 nsA nsB : List Node} {j lo hi : Nat}
    (hj : nsB.get? j = nsA.get? j)
    (hch : ∀ x, x ∈ childIdx ns0 (idv ns0 j) → nsB.get? x = nsA.get? x)
    (hG : GoodAt ns0 nsA j lo hi) : GoodAt ns0 nsB j lo hi := by
  have hlft : lftv nsB j = lftv nsA j := by unfold lftv; rw [hj]
  have hrgt : rgtv nsB j = rgtv nsA j := by unfold rgtv; rw [hj]
  have hcnt : countv nsB j = countv nsA j := by unfold countv; rw [hj]
  have hlftD : lftD nsB j = lftD nsA j := by unfold lftD; rw [hlft]
  have hrgtD : rgtD nsB j = rgtD nsA j := by unfold rgtD; rw [hrgt]
  obtain ⟨g1, g2, g3, g4, g5, g6, g7, g8, g9⟩ := hG
  refine ⟨by rw [hlft]; exact g1, by rw [hrgt]; exact g2,
    by rw [hlftD]; exact g3, by rw [hlftD, hrgtD]; exact g4,
    by rw [hrgtD]; exact g5, by rw [hlftD, hrgtD]; exact g6,
    by rw [hcnt]; exact g7, ?_, ?_⟩
  · intro x hx
    have hx1 : lftD nsB x = lftD nsA x := by
      unfold lftD lftv
      rw [hch x hx]
    have hx2 : rgtD nsB x = rgtD nsA x := by
      unfold rgtD rgtv
      rw [hch x hx]
    rw [hlftD, hrgtD, hx1, hx2]
    exact g8 x hx
  · refine List.Pairwise.imp_of_mem ?_ g9
    intro x y hx hy hxy
    have hx2 : rgtD nsB x = rgtD nsA x := by
      unfold rgtD rgtv
      rw [hch x hx]
    have hy1 : lftD nsB y = lftD nsA y := by
      unfold lftD lftv
      rw [hch y hy]
    rw [hx2, hy1]
    exact hxy

/-- Main invariant of the `fill` recursion: on success every visited node
satisfies `GoodAt` within the counter window, and the pending siblings
end up with left-to-right ordered intervals. -/
theorem fillL_values {ns0 : List Node} (hu : NLUniq ns0) (hl : LeafNotRef ns0)
    (hac : Acyclic ns0) :
    ∀ fuel (ns : List Node) cs n ns' r,
    SameSkel ns0 ns →
    fillL (childIdx ns0) (parentMap ns0) fuel ns cs n = .ok (ns', r) →
    cs.Nodup → NoChainPair ns0 cs →
    (∀ j, j ∈ visitL ns0 fuel cs → GoodAt ns0 ns' j (n + 1) r) ∧
    cs.Pairwise (fun x y => rgtD ns' x < lftD ns' y) := by
  intro fuel
  induction fuel with
  | zero =>
    intro ns cs n ns' r hsk h hnodup hnc
    cases cs with
    | nil =>
      refine ⟨?_, List.Pairwise.nil⟩
      intro j hj
      rw [visitL_nil] at hj
      cases hj
    | cons a cs => exact Except.noConfusion h
  | succ fuel ih =>
    intro ns cs n ns' r hsk h hnodup hnc
    cases cs with
    | nil =>
      refine ⟨?_, List.Pairwise.nil⟩
      intro j hj
      rw [visitL_nil] at hj
      cases hj
    | cons a cs =>
      obtain ⟨nd, nd1, ns2, n2, nd2, hnd', h1, h2, hnd2, h3⟩ := fillL_cons_inv h
      have hnode : nd.node = idv ns0 a := node_eq_idv0 hsk hnd'
      rw [hnode] at h2 h3
      have hsk1 : SameSkel ns0 (ns.set a nd1) :=
        hsk.trans (SameSkel.set hnd' (updLft_inv h1).1)
      have hsk2 : SameSkel ns0 ns2 := hsk1.trans (fillL_skel _ _ _ _ _ _ h2)
      have hsk3 : SameSkel ns0 (ns2.set a
          { nd2 with rgt := some (n2 + 1),
                     count := some (childIdx ns0 (idv ns0 a)).length }) :=
        hsk2.trans (SameSkel.set hnd2 rfl)
      have hanslen : a < ns.length := by
        by_contra hcon
        rw [List.get?_eq_none.mpr (by omega)] at hnd'
        cases hnd'
      have halen : a < ns0.length := by
        have := hsk.1
        omega
      obtain ⟨hamem, hndtail⟩ := List.nodup_cons.mp hnodup
      obtain ⟨hd1, hd2, hd3⟩ :=
        head_disjoint hu hl hac halen hsk1 h2 hsk3 h3 hamem hnc
      obtain ⟨hGc, hPc⟩ := ih _ _ _ _ _ hsk1 h2 (childIdx_nodup _ _)
        (children_noChain hac _)
      obtain ⟨hGs, hPs⟩ := ih _ _ _ _ _ hsk3 h3 hndtail (noChainPair_tail hnc)
      have hcnt2 := fillL_counter _ _ _ _ _ _ hsk1 h2
      have hcntr := fillL_counter _ _ _ _ _ _ hsk3 h3
      have hsize := visit_size hu hl hac halen hsk1 h2
      have hfr2 := fillL_frame _ _ _ _ _ _ hsk1 h2
      have hfr3 := fillL_frame _ _ _ _ _ _ hsk3 h3
      have ha2len : a < ns2.length := by
        have := hsk2.1
        omega
      have h2a : ns2.get? a = some nd1 := by
        rw [hfr2 a hd1]
        exact List.get?_set_eq_of_lt _ hanslen
      have hnd21 : nd2 = nd1 := by
        rw [h2a] at hnd2
        cases hnd2
        rfl
      have hns'a : ns'.get? a = some
          { nd2 with rgt := some (n2 + 1),
                     count := some (childIdx ns0 (idv ns0 a)).length } := by
        rw [hfr3 a hd2]
        exact List.get?_set_eq_of_lt _ ha2len
      have hlfta : lftv ns' a = some (n + 1) := by
        unfold lftv
        rw [hns'a]
        show nd2.lft = some (n + 1)
        rw [hnd21]
        exact (updLft_inv h1).2.1
      have hrgta : rgtv ns' a = some (n2 + 1) := by
        unfold rgtv
        rw [hns'a]
        rfl
      have hcnta : countv ns' a =
          some (childIdx ns0 (idv ns0 a)).length := by
        unfold countv
        rw [hns'a]
        rfl
      have hlftDa : lftD ns' a = n + 1 := by
        unfold lftD
        rw [hlfta]
        rfl
      have hrgtDa : rgtD ns' a = n2 + 1 := by
        unfold rgtD
        rw [hrgta]
        rfl
      have hx_ns' : ∀ x, x ∈ visitL ns0 fuel (childIdx ns0 (idv ns0 a)) →
          ns'.get? x = ns2.get? x := by
        intro x hx
        rw [hfr3 x (hd3 x hx)]
        exact List.get?_set_ne _ _ (fun he => hd1 (he ▸ hx))
      refine ⟨?_, ?_⟩
      · intro j hj
        rw [visitL_succ_cons] at hj
        rcases List.mem_cons.mp hj with rfl | hj'
        · refine ⟨by rw [hlfta]; rfl, by rw [hrgta]; rfl,
            by omega, by omega, by omega, by omega, hcnta, ?_, ?_⟩
          · intro x hx
            have hxV := (fillL_pending _ _ _ _ _ _ hsk1 h2 x hx).2
            have hG := hGc x hxV
            have he := hx_ns' x hxV
            have hl1 : lftD ns' x = lftD ns2 x := by
              unfold lftD lftv
              rw [he]
            have hr1 : rgtD ns' x = rgtD ns2 x := by
              unfold rgtD rgtv
              rw [he]
            have hx3 := hG.2.2.1
            have hx5 := hG.2.2.2.2.1
            constructor
            · omega
            · omega
          · refine List.Pairwise.imp_of_mem ?_ hPc
            intro x y hx hy hxy
            have hxV := (fillL_pending _ _ _ _ _ _ hsk1 h2 x hx).2
            have hyV := (fillL_pending _ _ _ _ _ _ hsk1 h2 y hy).2
            have hex := hx_ns' x hxV
            have hey := hx_ns' y hyV
            have hx2 : rgtD ns' x = rgtD ns2 x := by
              unfold rgtD rgtv
              rw [hex]
            have hy1 : lftD ns' y = lftD ns2 y := by
              unfold lftD lftv
              rw [hey]
            rw [hx2, hy1]
            exact hxy
        rcases List.mem_append.mp hj' with hjc | hjs
        · have hG2 := hGc j hjc
          have htrans : GoodAt ns0 ns' j (n + 1 + 1) n2 :=
            GoodAt_transfer (hx_ns' j hjc)
              (fun x hx => hx_ns' x
                (fillL_children_visited _ _ _ _ _ _ hsk1 h2 j hjc x hx)) hG2
          exact GoodAt_mono htrans (by omega) (by omega)
        · exact GoodAt_mono (hGs j hjs) (by omega) (le_refl r)
      · refine List.pairwise_cons.mpr ⟨?_, hPs⟩
        intro c' hc'
        have hc'V := (fillL_pending _ _ _ _ _ _ hsk3 h3 c' hc').2
        have hlo := (hGs c' hc'V).2.2.1
        omega

/-! #### Reaching the root, and transfer across `setPids` -/

theorem chain_to_root {ns0 : List Node} (hac : Acyclic ns0)
    (hres : Resolves ns0) {root : Nat}
    (hroot : ∀ x, x < ns0.length → pnv ns0 x = none → x = root) :
    ∀ j, j < ns0.length → ∃ k, iterP ns0 k j = some root := by
  intro j hj
  by_cases hex : ∃ t, t ≤ ns0.length ∧ ∃ x, iterP ns0 t j = some x ∧
      pIdx ns0 x = none
  · obtain ⟨t, ht, x, hx, hpx⟩ := hex
    have hxlt : x < ns0.length := by
      rcases Nat.eq_zero_or_pos t with rfl | hpos
      · simp only [iterP, Option.some.injEq] at hx
        omega
      · exact iterP_some_lt hpos hx
    have hpn : pnv ns0 x = none := by
      rcases hres x hxlt with hnone | ⟨u, hu1, hu2, hu3⟩
      · exact hnone
      · exfalso
        unfold pIdx at hpx
        rw [hu3] at hpx
        have hmem : u ∈ (List.range ns0.length).filter
            (fun q => !leafv ns0 q && idv ns0 q == idv ns0 u) := by
          rw [List.mem_filter, List.mem_range]
          exact ⟨hu1, by simp [hu2]⟩
        unfold firstNL at hpx
        rw [List.head?_eq_none_iff] at hpx
        rw [hpx] at hmem
        cases hmem
    refine ⟨t, ?_⟩
    rw [hx, hroot x hxlt hpn]
  · exfalso
    push_neg at hex
    have hall : ∀ t, t ≤ ns0.length → ∃ v, iterP ns0 t j = some v := by
      intro t
      induction t with
      | zero => intro _; exact ⟨j, rfl⟩
      | succ t iht =>
        intro hts
        obtain ⟨v, hv⟩ := iht (by omega)
        have hpv : pIdx ns0 v ≠ none := hex t (by omega) v hv
        cases hp : pIdx ns0 v with
        | none => exact absurd hp hpv
        | some u =>
          refine ⟨u, ?_⟩
          rw [iterP_add, hv, Option.some_bind, iterP_one, hp]
    obtain ⟨a, b, hab, hble, v, hva, hvb⟩ := chain_pigeon hj hall
    have hcyc := chain_linear hva hvb (by omega)
    have hvlt : v < ns0.length := by
      rcases Nat.eq_zero_or_pos a with rfl | hpos
      · simp only [iterP, Option.some.injEq] at hva
        omega
      · exact iterP_some_lt hpos hva
    exact acyclic_full hac v hvlt (b - a) (by omega) hcyc

theorem noChainPair_singleton (ns0 : List Node) (root : Nat) :
    NoChainPair ns0 [root] := by
  intro a ha b hb hab _ _
  rw [List.mem_singleton] at ha hb
  exact hab (ha.trans hb.symm)

theorem setPids_get? (ns : List Node) (j : Nat) :
    (setPids ns).get? j =
      (ns.get? j).map (fun x => { x with pid := some (j + 1) }) := by
  unfold setPids
  rw [List.get?_map, List.get?_enum, Option.map_map]
  rfl

theorem setPids_length (ns : List Node) : (setPids ns).length = ns.length := by
  unfold setPids
  rw [List.length_map, List.enum_length]

theorem setPids_idv (ns : List Node) (j : Nat) :
    idv (setPids ns) j = idv ns j := by
  unfold idv
  rw [setPids_get?]
  cases ns.get? j <;> rfl

theorem setPids_leafv (ns : List Node) (j : Nat) :
    leafv (setPids ns) j = leafv ns j := by
  unfold leafv
  rw [setPids_get?]
  cases ns.get? j <;> rfl

theorem setPids_pnv (ns : List Node) (j : Nat) :
    pnv (setPids ns) j = pnv ns j := by
  unfold pnv
  rw [setPids_get?]
  cases ns.get? j <;> rfl

theorem setPids_pidv {ns : List Node} {j : Nat} (hj : j < ns.length) :
    pidv (setPids ns) j = some (j + 1) := by
  unfold pidv
  rw [setPids_get?]
  cases hg : ns.get? j with
  | none => exact absurd (List.get?_eq_none.mp hg) (by omega)
  | some nd => rfl

theorem setPids_childIdx (ns : List Node) (s : String) :
    childIdx (setPids ns) s = childIdx ns s := by
  unfold childIdx
  rw [setPids_length]
  refine List.filter_congr ?_
  intro j _
  rw [setPids_pnv]

theorem setPids_firstNL (ns : List Node) (s : String) :
    firstNL (setPids ns) s = firstNL ns s := by
  unfold firstNL
  rw [setPids_length]
  congr 1
  refine List.filter_congr ?_
  intro j _
  rw [setPids_leafv, setPids_idv]

theorem setPids_parentMap (ns : List Node) (s : String) :
    parentMap (setPids ns) s = parentMap ns s := by
  unfold parentMap
  rw [setPids_length]
  congr 2
  refine List.filter_congr ?_
  intro j _
  rw [setPids_leafv, setPids_idv]

theorem setPids_pIdx (ns : List Node) (j : Nat) :
    pIdx (setPids ns) j = pIdx ns j := by
  unfold pIdx
  rw [setPids_pnv]
  cases pnv ns j with
  | none => rfl
  | some s => exact setPids_firstNL ns s

theorem setPids_iterP (ns : List Node) : ∀ k j,
    iterP (setPids ns) k j = iterP ns k j := by
  intro k
  induction k with
  | zero => intro j; rfl
  | succ k ih =>
    intro j
    show (pIdx (setPids ns) j).bind (iterP (setPids ns) k) =
      (pIdx ns j).bind (iterP ns k)
    rw [setPids_pIdx]
    cases pIdx ns j with
    | none => rfl
    | some u => exact ih u

theorem setPids_isDesc (ns : List Node) (i x : Nat) :
    isDesc (setPids ns) i x = isDesc ns i x := by
  unfold isDesc
  rw [setPids_length]
  have hfun : (fun k => decide (1 ≤ k) && iterP (setPids ns) k x == some i) =
      (fun k => decide (1 ≤ k) && iterP ns k x == some i) := by
    funext k
    rw [setPids_iterP]
  rw [hfun]

theorem setPids_descCount (ns : List Node) (i : Nat) :
    descCount (setPids ns) i = descCount ns i := by
  unfold descCount
  rw [setPids_length]
  refine List.countP_congr ?_
  intro x _
  rw [setPids_isDesc]

theorem setPids_NLUniq {ns : List Node} (h : NLUniq ns) :
    NLUniq (setPids ns) := by
  intro i hi j hj hli hlj hid
  rw [setPids_length] at hi hj
  rw [setPids_leafv] at hli hlj
  rw [setPids_idv, setPids_idv] at hid
  exact h i hi j hj hli hlj hid

theorem setPids_LeafNotRef {ns : List Node} (h : LeafNotRef ns) :
    LeafNotRef (setPids ns) := by
  intro i hi j hj hlj
  rw [setPids_length] at hi hj
  rw [setPids_leafv] at hlj
  rw [setPids_pnv, setPids_idv]
  exact h i hi j hj hlj

theorem setPids_Resolves {ns : List Node} (h : Resolves ns) :
    Resolves (setPids ns) := by
  intro i hi
  rw [setPids_length] at hi
  rw [setPids_pnv]
  rcases h i hi with hnone | ⟨j, hj, hlj, hpn⟩
  · exact Or.inl hnone
  · exact Or.inr ⟨j, by rw [setPids_length]; exact hj,
      by rw [setPids_leafv]; exact hlj, by rw [setPids_idv]; exact hpn⟩

theorem setPids_Acyclic {ns : List Node} (h : Acyclic ns) :
    Acyclic (setPids ns) := by
  intro i hi k hk hk1
  rw [setPids_length] at hi hk
  rw [setPids_iterP]
  exact h i hi k hk hk1

/-! #### The final sort is the identity -/

theorem sortByPid_eq_self : ∀ l : List Node,
    l.Pairwise (fun x y => pidLe x y = true) → sortByPid l = l := by
  intro l
  induction l with
  | nil => intro _; rfl
  | cons a l ih =>
    intro hp
    obtain ⟨ha, hl'⟩ := List.pairwise_cons.mp hp
    show insertPid a (sortByPid l) = a :: l
    rw [ih hl']
    cases l with
    | nil => rfl
    | cons b t =>
      show insertPid a (b :: t) = a :: b :: t
      unfold insertPid
      rw [if_pos (ha b (List.mem_cons_self _ _))]

theorem pids_pairwise {l : List Node}
    (h : ∀ j, j < l.length → pidv l j = some (j + 1)) :
    l.Pairwise (fun x y => pidLe x y = true) := by
  rw [List.pairwise_iff_get]
  intro i j hij
  have hi := h i i.2
  have hj := h j j.2
  unfold pidv at hi hj
  rw [List.get?_eq_get i.2] at hi
  rw [List.get?_eq_get j.2] at hj
  simp only [Option.some_bind] at hi hj
  have hij' : (i : Nat) < (j : Nat) := hij
  unfold pidLe
  rw [hi, hj]
  simp only [decide_eq_true_eq]
  omega

theorem graphNew_ok_inv {ns ns' : List Node} {r : Nat}
    (h : graphNew ns = .ok (ns', r)) :
    ns' = ns ∧ r < ns.length ∧ pnv ns r = none ∧
      ∀ q, q < ns.length → pnv ns q = none → q = r := by
  rcases Nat.lt_or_ge (rootless ns) 1 with h0 | h1
  · rw [graphNew, rootLoop_no_root (by omega)] at h
    exact Except.noConfusion h
  rcases Nat.lt_or_ge (rootless ns) 2 with h1' | h2
  · obtain ⟨j, hj, hjn, huniq, hres⟩ := @rootLoop_single ns (by omega) 0
    rw [graphNew, hres] at h
    have hj0 : (0 : Nat) + j = j := by omega
    rw [hj0] at h
    cases h
    exact ⟨rfl, hj, hjn, huniq⟩
  · rw [graphNew, rootLoop_multi h2 0] at h
    exact Except.noConfusion h

/-! #### Child lists versus resolved parent counts -/

theorem cm_length_eq_childCount {ns : List Node} (hu : NLUniq ns)
    (hl : LeafNotRef ns) {i : Nat} (hi : i < ns.length) :
    (childIdx ns (idv ns i)).length = childCount ns i := by
  unfold childCount childIdx
  rw [← List.countP_eq_length_filter]
  refine List.countP_congr ?_
  intro x hx
  rw [List.mem_range] at hx
  have hiff : (pnv ns x = some (idv ns i)) ↔ (pIdx ns x = some i) := by
    constructor
    · intro hpn
      exact pIdx_child hu hl hi (mem_childIdx.mpr ⟨hx, hpn⟩)
    · intro hp
      exact (mem_childIdx.mp (pIdx_dom hp).2).2
  constructor
  · intro h
    rw [beq_iff_eq] at h ⊢
    exact hiff.mp h
  · intro h
    rw [beq_iff_eq] at h ⊢
    exact hiff.mpr h

theorem leaf_childIdx_nil {ns : List Node} (hl : LeafNotRef ns) {i : Nat}
    (hi : i < ns.length) (hleaf : leafv ns i = true) :
    childIdx ns (idv ns i) = [] := by
  rw [List.eq_nil_iff_forall_not_mem]
  intro x hx
  obtain ⟨hx1, hx2⟩ := mem_childIdx.mp hx
  exact hl x hx1 i hi hleaf hx2

theorem leaf_descCount_zero {ns : List Node} (hl : LeafNotRef ns) {i : Nat}
    (hi : i < ns.length) (hleaf : leafv ns i = true) :
    descCount ns i = 0 := by
  unfold descCount
  rw [List.countP_eq_zero]
  intro x _
  rw [Bool.not_eq_true]
  by_contra hcon
  rw [Bool.not_eq_false] at hcon
  obtain ⟨k, hk1, _, hk3⟩ := isDesc_iff.mp hcon
  obtain ⟨y, _, hy2⟩ := chain_last hk1 hk3
  have hmem := (pIdx_dom hy2).2
  rw [leaf_childIdx_nil hl hi hleaf] at hmem
  cases hmem

theorem pairwise_rel_or {α : Type} {R : α → α → Prop} :
    ∀ {l : List α}, l.Pairwise R → ∀ {x y : α}, x ∈ l → y ∈ l → x ≠ y →
      R x y ∨ R y x := by
  intro l hp
  induction hp with
  | nil =>
    intro x y hx _ _
    cases hx
  | cons ha _ ih =>
    intro x y hx hy hxy
    rcases List.mem_cons.mp hx with rfl | hx'
    · rcases List.mem_cons.mp hy with rfl | hy'
      · exact absurd rfl hxy
      · exact Or.inl (ha y hy')
    · rcases List.mem_cons.mp hy with rfl | hy'
      · exact Or.inr (ha x hx')
      · exact ih hx' hy' hxy

/-! #### The assembled pipeline invariant -/

theorem buildIndex_good {ns : List Node} {fuel root : Nat} {out : List Node}
    (hu : NLUniq ns) (hl : LeafNotRef ns) (hres : Resolves ns)
    (hac : Acyclic ns)
    (hg : graphNew ns = .ok (ns, root))
    (hb : buildIndex fuel (ns, root) = .ok out) :
    ∀ j, j < ns.length →
      (lftv out j).isSome ∧ (rgtv out j).isSome ∧
      1 ≤ lftD out j ∧ lftD out j < rgtD out j ∧
      rgtD out j = lftD out j + 2 * descCount ns j + 1 ∧
      countv out j = some (childIdx ns (idv ns j)).length ∧
      (∀ x, x ∈ childIdx ns (idv ns j) →
        lftD out j < lftD out x ∧ rgtD out x < rgtD out j) ∧
      (childIdx ns (idv ns j)).Pairwise
        (fun x y => rgtD out x < lftD out y) := by
  obtain ⟨-, hrlt, hrpn, hruniq⟩ := graphNew_ok_inv hg
  simp only [buildIndex] at hb
  cases hfill : fillL (childIdx (setPids ns)) (parentMap (setPids ns))
      fuel (setPids ns) [root] 0 with
  | error e =>
    rw [hfill] at hb
    exact Except.noConfusion hb
  | ok p =>
    obtain ⟨ns', rr⟩ := p
    simp only [hfill, Except.ok.injEq] at hb
    have hu0 := setPids_NLUniq hu
    have hl0 := setPids_LeafNotRef hl
    have hres0 := setPids_Resolves hres
    have hac0 := setPids_Acyclic hac
    have hsk : SameSkel (setPids ns) (setPids ns) := SameSkel.refl _
    obtain ⟨hG, -⟩ := fillL_values hu0 hl0 hac0 fuel (setPids ns) [root] 0
      ns' rr hsk hfill (by simp) (noChainPair_singleton _ root)
    have hskel' : SameSkel (setPids ns) ns' :=
      fillL_skel fuel (setPids ns) [root] 0 ns' rr hfill
    have hlen' : ns'.length = ns.length := by
      rw [← hskel'.1, setPids_length]
    have hpids : ∀ j, j < ns'.length → pidv ns' j = some (j + 1) := by
      intro j hj
      rw [← hskel'.pidv_eq j]
      exact setPids_pidv (by omega)
    have hout : out = ns' := by
      rw [← hb]
      exact sortByPid_eq_self ns' (pids_pairwise hpids)
    have hroot0 : ∀ x, x < (setPids ns).length →
        pnv (setPids ns) x = none → x = root := by
      intro x hx hpn
      rw [setPids_length] at hx
      rw [setPids_pnv] at hpn
      exact hruniq x hx hpn
    intro j hj
    have hjV : j ∈ visitL (setPids ns) fuel [root] := by
      obtain ⟨k, hk⟩ := chain_to_root hac0 hres0 hroot0 j
        (by rw [setPids_length]; exact hj)
      have hrootV : root ∈ visitL (setPids ns) fuel [root] :=
        (fillL_pending fuel (setPids ns) [root] 0 ns' rr hsk hfill root
          (List.mem_singleton.mpr rfl)).2
      exact fillL_chain_visited hsk hfill k j root hrootV hk
    have hGj := hG j hjV
    obtain ⟨hg1, hg2, hg3, hg4, _, hg6, hg7, hg8, hg9⟩ := hGj
    rw [setPids_descCount] at hg6
    rw [setPids_idv, setPids_childIdx] at hg7 hg8 hg9
    rw [hout]
    exact ⟨hg1, hg2, hg3, hg4, hg6, hg7, hg8, hg9⟩

/-- A collection meeting C1's stated validity conditions (exactly one
root, every parent identity resolving to a non-leaf node, acyclic) in
which the leaf at position 1 shares its identity `"2"` with the non-leaf
at position 2, so the identity-keyed child map attributes node 3 to the
leaf as well. -/
def exC1 : List Node :=
  [ mkN "1" none false,
    mkN "2" (some "1") true,
    mkN "2" (some "1") false,
    mkN "3" (some "2") false ]

/-- `Graph::build_index` output on `exC1`. -/
def outC1 : List Node :=
  match buildIndex 20 (exC1, 0) with
  | .ok l => l
  | .error _ => []

/-- A three-node chain (root, inner node, leaf) on which the amended C1
and C2 statements are instantiated. -/
def exW : List Node :=
  [ mkN "r" none false,
    mkN "a" (some "r") false,
    mkN "b" (some "a") true ]

/-- `Graph::build_index` output on `exW`. -/
def outW : List Node :=
  match buildIndex 10 (exW, 0) with
  | .ok l => l
  | .error _ => []

/-- C1 (counterexample): `exC1` satisfies every validity condition the
claim states — exactly one root, every parent identity resolves to a
non-leaf node, acyclicity — and `build_index` completes, yet the leaf at
position 1 ends with `rgt = lft + 3` and `count = 1`, refuting the
claimed leaf invariant `rgt = lft + 1 ∧ count = 0`. -/
theorem c1_counterexample :
    rootless exC1 = 1 ∧ Resolves exC1 ∧ Acyclic exC1 ∧
    graphNew exC1 = .ok (exC1, 0) ∧
    buildIndex 20 (exC1, 0) = .ok outC1 ∧
    leafv exC1 1 = true ∧
    rgtD outC1 1 = lftD outC1 1 + 3 ∧
    countv outC1 1 = some 1 :=
  ⟨by decide, by decide, by decide, by rfl, by rfl, by decide, by rfl,
   by rfl⟩

/-- C2 (counterexample): on the same valid-by-the-claim collection
`exC1`, the leaf at position 1 has `(rgt - lft - 1) / 2 = 1` although it
has no descendants. -/
theorem c2_counterexample :
    rootless exC1 = 1 ∧ Resolves exC1 ∧ Acyclic exC1 ∧
    buildIndex 20 (exC1, 0) = .ok outC1 ∧
    (rgtD outC1 1 - lftD outC1 1 - 1) / 2 = 1 ∧
    descCount exC1 1 = 0 :=
  ⟨by decide, by decide, by decide, by rfl, by rfl, by decide⟩

/-- C1 (amended): when the valid tree input additionally has unique
non-leaf identities and no leaf's identity occurring as a parent
identity, `build_index` establishes the full nested-set invariant: every
node has `lft < rgt`, each child's interval is strictly inside its
resolved parent's, distinct siblings occupy disjoint intervals, `count`
equals the number of direct children, and every leaf has
`rgt = lft + 1` and `count = 0`. -/
theorem c1_amended_nested_set_invariants
    {ns : List Node} {fuel root : Nat} {out : List Node}
    (hu : NLUniq ns) (hl : LeafNotRef ns) (hres : Resolves ns)
    (hac : Acyclic ns)
    (hg : graphNew ns = .ok (ns, root))
    (hb : buildIndex fuel (ns, root) = .ok out) :
    (∀ j, j < ns.length → (lftv out j).isSome ∧ (rgtv out j).isSome ∧
      lftD out j < rgtD out j) ∧
    (∀ p c, pIdx ns c = some p →
      lftD out p < lftD out c ∧ rgtD out c < rgtD out p) ∧
    (∀ p a b, pIdx ns a = some p → pIdx ns b = some p → a ≠ b →
      rgtD out a < lftD out b ∨ rgtD out b < lftD out a) ∧
    (∀ j, j < ns.length → countv out j = some (childCount ns j)) ∧
    (∀ j, j < ns.length → leafv ns j = true →
      rgtD out j = lftD out j + 1 ∧ countv out j = some 0) := by
  have hmain := buildIndex_good hu hl hres hac hg hb
  refine ⟨?_, ?_, ?_, ?_, ?_⟩
  · intro j hj
    obtain ⟨h1, h2, _, h4, _⟩ := hmain j hj
    exact ⟨h1, h2, h4⟩
  · intro p c hpc
    have hplt : p < ns.length := pIdx_lt hpc
    have hc := (pIdx_dom hpc).2
    obtain ⟨_, _, _, _, _, _, h7, _⟩ := hmain p hplt
    exact h7 c hc
  · intro p a b hpa hpb hab
    have hplt : p < ns.length := pIdx_lt hpa
    have hamem := (pIdx_dom hpa).2
    have hbmem := (pIdx_dom hpb).2
    obtain ⟨_, _, _, _, _, _, _, h8⟩ := hmain p hplt
    exact pairwise_rel_or h8 hamem hbmem hab
  · intro j hj
    obtain ⟨_, _, _, _, _, h6, _, _⟩ := hmain j hj
    rw [h6, cm_length_eq_childCount hu hl hj]
  · intro j hj hleaf
    obtain ⟨_, _, _, _, h5, h6, _, _⟩ := hmain j hj
    constructor
    · rw [leaf_descCount_zero hl hj hleaf] at h5
      omega
    · simp [h6, leaf_childIdx_nil hl hj hleaf]

/-- C1 (amended, witness): the amended invariant instantiated on the
three-node chain `exW`, here projected to the child-count clause. -/
theorem c1_amended_witness :
    (NLUniq exW ∧ LeafNotRef exW ∧ Resolves exW ∧ Acyclic exW ∧
      graphNew exW = .ok (exW, 0) ∧ buildIndex 10 (exW, 0) = .ok outW) ∧
    (∀ j, j < exW.length → countv outW j = some (childCount exW j)) :=
  ⟨⟨by decide, by decide, by decide, by decide, by rfl, by rfl⟩,
   (@c1_amended_nested_set_invariants exW 10 0 outW (by decide) (by decide)
      (by decide) (by decide) (by rfl) (by rfl)).2.2.2.1⟩

/-- C2 (amended): when the valid tree input additionally has unique
non-leaf identities and no leaf's identity occurring as a parent
identity, every node's `rgt - lft` is odd and `(rgt - lft - 1) / 2`
equals its number of descendants. -/
theorem c2_amended_descendant_count
    {ns : List Node} {fuel root : Nat} {out : List Node}
    (hu : NLUniq ns) (hl : LeafNotRef ns) (hres : Resolves ns)
    (hac : Acyclic ns)
    (hg : graphNew ns = .ok (ns, root))
    (hb : buildIndex fuel (ns, root) = .ok out) :
    ∀ j, j < ns.length →
      (rgtD out j - lftD out j) % 2 = 1 ∧
      (rgtD out j - lftD out j - 1) / 2 = descCount ns j := by
  intro j hj
  obtain ⟨_, _, _, _, h5, _⟩ := buildIndex_good hu hl hres hac hg hb j hj
  omega

/-- C2 (amended, witness): the descendant-count relation instantiated at
the root of the three-node chain `exW`. -/
theorem c2_amended_witness :
    (NLUniq exW ∧ LeafNotRef exW ∧ Resolves exW ∧ Acyclic exW ∧
      graphNew exW = .ok (exW, 0) ∧ buildIndex 10 (exW, 0) = .ok outW ∧
      0 < exW.length) ∧
    ((rgtD outW 0 - lftD outW 0) % 2 = 1 ∧
      (rgtD outW 0 - lftD outW 0 - 1) / 2 = descCount exW 0) :=
  ⟨⟨by decide, by decide, by decide, by decide, by rfl, by rfl, by decide⟩,
   @c2_amended_descendant_count exW 10 0 outW (by decide) (by decide)
      (by decide) (by decide) (by rfl) (by rfl) 0 (by decide)⟩

/-- C6 (witness): the single-root branch of the `Graph::new`
characterization instantiated on the three-node chain `exW`. -/
theorem c6_witness :
    rootless exW = 1 ∧
    (∃ r, graphNew exW = .ok (exW, r) ∧ r < exW.length ∧
      pnv exW r = none ∧ ∀ q, q < exW.length → pnv exW q = none → q = r) :=
  ⟨by decide, (c6_graph_new_root_validation exW).2.2 (by decide)⟩

end NSI
